import Mathlib

/-!
# A shallow embedding of the CMO queueing-system simulation engine

This file models the discrete-event simulation engine of `src/models/system.py`
(classes `Source`, `Device`, `SMOSystem`) and proves properties of the
admission, eviction, packet-selection and scheduling disciplines.

Modelling conventions:
* Python floats are modelled by `ℚ`; `float('inf')` is modelled by the
  explicit extended-time type `ETime` (`fin q` or `inf`).
* The random draws (`uniform_distribution`, `exponential_distribution`) are
  modelled by an oracle stream `rand : ℕ → ℚ` carried in the state together
  with a cursor `randIdx`; each call to a generator consumes the next value.
  Both generators of `src/utils/distributions.py` return nonnegative values
  when the configured `min_interval` is nonnegative, which is the hypothesis
  the temporal theorems take on the stream.
* The `StepModeController` notifications (`wait_for_step`) only display state
  and block for console input; with step mode disabled they are no-ops and
  never mutate engine state, so they are omitted from the embedding.
* Python list indexing is modelled by `List.getD`; the buffer lists always
  have length `buffer_capacity` (established at reset and preserved).
-/

/-- A simulation instant: a finite rational time or `+∞` (`float('inf')`). -/
inductive ETime where
  | fin (t : ℚ)
  | inf
deriving DecidableEq

/-- `a <= b` on Python floats extended with `inf` (`inf <= inf` is true). -/
def ETime.le : ETime → ETime → Bool
  | _, .inf => true
  | .inf, .fin _ => false
  | .fin a, .fin b => a ≤ b

/-- `a < b` on Python floats extended with `inf` (`inf < inf` is false). -/
def ETime.lt : ETime → ETime → Bool
  | .inf, _ => false
  | .fin _, .inf => true
  | .fin a, .fin b => a < b

/-- Extract the finite value, with a default for `inf`. -/
def ETime.toQ : ETime → ℚ → ℚ
  | .fin t, _ => t
  | .inf, d => d

/-- Mirrors class `Source` of `src/models/system.py` (the distribution
parameters live in the oracle stream, not here). -/
structure Source where
  id : ℕ
  generated_count : ℕ
  processed_count : ℕ
  rejected_count : ℕ
  total_wait_time : ℚ
  next_arrival_time : ℚ
deriving DecidableEq

instance : Inhabited Source := ⟨⟨0, 0, 0, 0, 0, 0⟩⟩

/-- Mirrors class `Device` of `src/models/system.py`; `current_source` holds
the occupant's source id. -/
structure Device where
  id : ℕ
  is_busy : Bool
  current_source : Option ℕ
  processed_count : ℕ
  finish_time : ETime
deriving DecidableEq

instance : Inhabited Device := ⟨⟨0, false, none, 0, .inf⟩⟩

/-- The mutable state of `SMOSystem` that the simulation engine touches,
plus the random oracle. `BUFN` holds `-1` for an empty slot, otherwise the
owning source id, exactly as in the Python code. -/
structure SMOState where
  buffer_capacity : ℕ
  min_requests : ℕ
  sources : List Source
  devices : List Device
  current_time : ℚ
  INDBUF : ℕ
  BUFT : List ℚ
  BUFN : List ℤ
  KOTK : ℕ
  TOG : List ℚ
  current_packet : ℤ
  packet_empty : Bool
  rand : ℕ → ℚ
  randIdx : ℕ

/-- Consume the next oracle value (one call to a distribution generator). -/
def SMOState.draw (st : SMOState) : ℚ × SMOState :=
  (st.rand st.randIdx, { st with randIdx := st.randIdx + 1 })

/-- Replace the element at an index, leaving other elements (and a too-large
index) alone. -/
def modifyNth (f : α → α) : ℕ → List α → List α
  | _, [] => []
  | 0, x :: xs => f x :: xs
  | n + 1, x :: xs => x :: modifyNth f n xs

/-- First index holding value `p`, or `-1` when there is none: the scan
`for i in range(cap): if BUFN[i] == p: ...` used by `bms12_block` (with
`p = -1`) and `select_request_from_buffer` (with `p = current_packet`). -/
def findSlot (p : ℤ) : List ℤ → ℤ
  | [] => -1
  | x :: xs =>
    if x = p then 0
    else
      let r := findSlot p xs
      if r = -1 then -1 else r + 1

/-- Minimum of a list of finite times (`min(...)` in `boos_block`); the code
only evaluates it on the nonempty source list, `0` is a junk default. -/
def listMinQ : List ℚ → ℚ
  | [] => 0
  | [x] => x
  | x :: y :: xs => min x (listMinQ (y :: xs))

/-- Minimum of the device finish times, `inf` when there are no devices:
`min(device_finish_times) if device_finish_times else float('inf')`. -/
def listMinE : List ETime → ETime
  | [] => .inf
  | x :: xs => if (listMinE xs).le x then listMinE xs else x

/-- First index satisfying the predicate: `next(i for i, ... if ...)`.
Returns the length when nothing matches (the code never hits that case). -/
def firstIdx (p : α → Bool) : List α → ℕ
  | [] => 0
  | x :: xs => if p x then 0 else firstIdx p xs + 1

/-- Number of occupied buffer slots (entries different from `-1`). -/
def countOcc : List ℤ → ℕ
  | [] => 0
  | n :: ns => (if n = -1 then 0 else 1) + countOcc ns

/-- `find_free_device`: index of the first device that is not busy. -/
def find_free_device : List Device → Option ℕ
  | [] => none
  | d :: ds => if !d.is_busy then some 0 else (find_free_device ds).map (· + 1)

/-- The scan of `find_device_to_free`: running minimum `mn` (initially
`inf`), current best index `res` (initially `0`), next index `idx`;
a device replaces the best only when its finish time is strictly smaller. -/
def fdtfAux : List Device → ETime → ℕ → ℕ → ℕ
  | [], _, res, _ => res
  | d :: ds, mn, res, idx =>
    if d.finish_time.lt mn then fdtfAux ds d.finish_time idx (idx + 1)
    else fdtfAux ds mn res (idx + 1)

/-- `find_device_to_free`: the device with the minimal finish time, the
first one on ties, device `0` when every finish time is `inf`. -/
def SMOState.find_device_to_free (st : SMOState) : ℕ :=
  fdtfAux st.devices .inf 0 0

/-- `boos_block`: the next event code. `1..N` is an arrival from source
`code - 1`, `N + 1` is a device completion; arrivals win exact ties. -/
def SMOState.boos_block (st : SMOState) : ℕ :=
  let next_arrival := listMinQ (st.sources.map (·.next_arrival_time))
  let arrival_source_id :=
    firstIdx (fun s => s.next_arrival_time = next_arrival) st.sources
  let next_device_free := listMinE (st.devices.map (·.finish_time))
  if (ETime.fin next_arrival).le next_device_free then arrival_source_id + 1
  else st.sources.length + 1

/-- `find_victim_for_rejection`: the candidates `(priority, arrival_time,
slot)` are built in slot order with `priority = source_id + 1`, then
stable-sorted by `(priority, arrival_time)` ascending and the head is
returned (`0` when the buffer holds nothing). The head of the stable sort
is the first candidate that is lexicographically minimal, which the fold
below computes by keeping the incumbent on ties. -/
def SMOState.find_victim_for_rejection (st : SMOState) : ℕ :=
  let cands := (List.range st.buffer_capacity).filterMap (fun i =>
    let n := st.BUFN.getD i (-1)
    if n ≠ -1 then some (n + 1, st.BUFT.getD i 0, i) else none)
  match cands with
  | [] => 0
  | c :: cs =>
    (cs.foldl (fun best c =>
      if c.1 < best.1 ∨ (c.1 = best.1 ∧ c.2.1 < best.2.1) then c else best)
      c).2.2

/-- `bms11_block` for the arrival of source `sid`: rejection with knockout.
Note the code increments `rejected_count` of the ARRIVING source (the event
data it emits names the victim as `rejected_source`). -/
def SMOState.bms11_block (st : SMOState) (sid : ℕ) : SMOState :=
  let victim := st.find_victim_for_rejection
  let arr := (st.sources.getD sid default).next_arrival_time
  let st := { st with
    KOTK := st.KOTK + 1,
    sources := modifyNth
      (fun s => { s with rejected_count := s.rejected_count + 1 })
      sid st.sources }
  let st := { st with
    BUFT := st.BUFT.set victim arr,
    BUFN := st.BUFN.set victim (sid : ℤ) }
  let (interval, st) := st.draw
  { st with sources := modifyNth (fun s => { s with
      generated_count := s.generated_count + 1,
      next_arrival_time := st.current_time + interval }) sid st.sources }

/-- `bms12_block` for the arrival of source `sid`: write into the first
empty slot (when one exists) and regenerate the source's arrival. -/
def SMOState.bms12_block (st : SMOState) (sid : ℕ) : SMOState :=
  let wp := findSlot (-1) st.BUFN
  let arr := (st.sources.getD sid default).next_arrival_time
  let st :=
    if 0 ≤ wp then
      { st with
        BUFT := st.BUFT.set wp.toNat arr,
        BUFN := st.BUFN.set wp.toNat (sid : ℤ),
        INDBUF := st.INDBUF + 1 }
    else st
  let (interval, st) := st.draw
  { st with sources := modifyNth (fun s => { s with
      generated_count := s.generated_count + 1,
      next_arrival_time := st.current_time + interval }) sid st.sources }

/-- `select_new_packet`: choose packet `0` when source `0` has a buffered
request, otherwise packet `1`, otherwise no packet. (The `packet_change`
observer notification carries no state change and is omitted.) -/
def SMOState.select_new_packet (st : SMOState) : SMOState :=
  let available := st.BUFN.filter (fun n => decide (n ≠ -1))
  if available.isEmpty then
    { st with current_packet := -1, packet_empty := true }
  else if available.contains 0 then
    { st with current_packet := 0, packet_empty := false }
  else
    { st with current_packet := 1, packet_empty := false }

/-- `select_request_from_buffer`: returns the chosen slot index (`-1` for
none) together with the updated state (the packet fields may change). -/
def SMOState.select_request_from_buffer (st : SMOState) : ℤ × SMOState :=
  let st :=
    if st.current_packet = -1 ∨ st.packet_empty then st.select_new_packet
    else st
  let i := findSlot st.current_packet st.BUFN
  if 0 ≤ i then (i, { st with packet_empty := false })
  else
    let st := st.select_new_packet
    let j := findSlot st.current_packet st.BUFN
    if 0 ≤ j then (j, st) else (-1, st)

/-- `remove_from_buffer`: clear slot `i`; `INDBUF = max(0, INDBUF - 1)` is
exactly truncated subtraction on `ℕ`. -/
def SMOState.remove_from_buffer (st : SMOState) (i : ℕ) : SMOState :=
  if i < st.buffer_capacity then
    { st with
      BUFT := st.BUFT.set i 0,
      BUFN := st.BUFN.set i (-1),
      INDBUF := st.INDBUF - 1 }
  else st

/-- The Python index `sources[source_id]` for a possibly negative id
(negative indices wrap from the end of the list). -/
def pyIndex (len : ℕ) (i : ℤ) : ℕ :=
  if i < 0 then len - i.natAbs else i.toNat

/-- `bms31_block` for freed device `did`: take a request from the buffer
(packet discipline), account its wait, and start service. -/
def SMOState.bms31_block (st : SMOState) (did : ℕ) : SMOState :=
  let (sel, st) := st.select_request_from_buffer
  if 0 ≤ sel then
    let i := sel.toNat
    let source_id := st.BUFN.getD i (-1)
    let sid := pyIndex st.sources.length source_id
    let arrival := st.BUFT.getD i 0
    let wait := st.current_time - arrival
    let st := { st with
      sources := modifyNth
        (fun s => { s with total_wait_time := s.total_wait_time + wait })
        sid st.sources,
      TOG := modifyNth (fun t => t + wait) sid st.TOG }
    let (service, st) := st.draw
    let st := { st with devices := modifyNth (fun d => { d with
        finish_time := .fin (st.current_time + service),
        is_busy := true,
        current_source := some sid }) did st.devices }
    let st := st.remove_from_buffer i
    { st with
      devices := modifyNth
        (fun d => { d with processed_count := d.processed_count + 1 })
        did st.devices,
      sources := modifyNth
        (fun s => { s with processed_count := s.processed_count + 1 })
        sid st.sources }
  else st

/-- `bms32_block`: direct service of source `sid` on free device `did`. -/
def SMOState.bms32_block (st : SMOState) (sid did : ℕ) : SMOState :=
  let (service, st) := st.draw
  let st := { st with devices := modifyNth (fun d => { d with
      finish_time := .fin (st.current_time + service),
      is_busy := true,
      current_source := some sid,
      processed_count := d.processed_count + 1 }) did st.devices }
  let (interval, st) := st.draw
  { st with sources := modifyNth (fun s => { s with
      processed_count := s.processed_count + 1,
      generated_count := s.generated_count + 1,
      next_arrival_time := st.current_time + interval }) sid st.sources }

/-- `bas3_block` for device `did`: the device frees; serve from the buffer
when it is nonempty, otherwise park the device at `inf`. -/
def SMOState.bas3_block (st : SMOState) (did : ℕ) : SMOState :=
  let st := { st with
    devices := modifyNth
      (fun d => { d with is_busy := false, current_source := none })
      did st.devices }
  if 0 < st.INDBUF then st.bms31_block did
  else { st with
    devices := modifyNth (fun d => { d with finish_time := .inf })
      did st.devices }

/-- `bas_block` for the arrival of source `sid`: direct service, buffer
write, or rejection with knockout. -/
def SMOState.bas_block (st : SMOState) (sid : ℕ) : SMOState :=
  match find_free_device st.devices with
  | some did => st.bms32_block sid did
  | none =>
    if st.INDBUF < st.buffer_capacity then st.bms12_block sid
    else st.bms11_block sid

/-- `process_event`: dispatch on the event code. -/
def SMOState.process_event (st : SMOState) (e : ℕ) : SMOState :=
  if 1 ≤ e ∧ e ≤ st.sources.length then st.bas_block (e - 1)
  else if e = st.sources.length + 1 then st.bas3_block st.find_device_to_free
  else st

/-- `all(source.generated_count >= self.min_requests for ...)`. -/
def SMOState.allDone (st : SMOState) : Bool :=
  st.sources.all (fun s => st.min_requests ≤ s.generated_count)

/-- One iteration of the `run_realization` while-loop: pick the event,
`none` when `event_type == 0` (the `break`), otherwise advance
`current_time` to the event's time and process it. In the completion
branch the finish time is finite whenever the branch is reachable; the
`toQ` default is immaterial there. -/
def SMOState.loopBody (st : SMOState) : Option SMOState :=
  let e := st.boos_block
  if e = 0 then none
  else
    let st1 :=
      if 1 ≤ e ∧ e ≤ st.sources.length then
        { st with current_time :=
            (st.sources.getD (e - 1) default).next_arrival_time }
      else
        let ft := (st.devices.getD st.find_device_to_free default).finish_time
        { st with current_time := ft.toQ st.current_time }
    some (st1.process_event e)

/-- The `run_realization` event loop with an explicit fuel: stop when every
source reached `min_requests`, when the body breaks, or when the fuel (the
iteration ceiling) is exhausted. -/
def runLoop : ℕ → SMOState → SMOState
  | 0, st => st
  | fuel + 1, st =>
    if st.allDone then st
    else
      match st.loopBody with
      | none => st
      | some st' => runLoop fuel st'

/-- `initialize_realization`: reset time, sources (each draws its first
arrival interval, in order), devices, buffer and counters. -/
def SMOState.init_realization (st : SMOState) : SMOState :=
  let st0 := { st with current_time := 0 }
  let acc := st0.sources.foldl (fun (acc : List Source × SMOState) s =>
    let (l, st) := acc
    let (iv, st) := st.draw
    ({ s with
        generated_count := 0,
        processed_count := 0,
        rejected_count := 0,
        total_wait_time := 0,
        next_arrival_time := iv } :: l, st)) ([], st0)
  let st1 := { acc.2 with sources := acc.1.reverse }
  { st1 with
    devices := st1.devices.map (fun d => { d with
      is_busy := false,
      current_source := none,
      processed_count := 0,
      finish_time := .inf }),
    INDBUF := 0,
    BUFT := List.replicate st1.buffer_capacity 0,
    BUFN := List.replicate st1.buffer_capacity (-1),
    KOTK := 0,
    TOG := List.replicate st1.sources.length 0,
    current_packet := -1,
    packet_empty := true }

/-- The hard iteration ceiling of `run_realization`. -/
def max_iterations : ℕ := 100000

/-- `run_realization` up to the returned state (the result record is
computed by `calculate_results` below). -/
def SMOState.run_realization (st : SMOState) : SMOState :=
  runLoop max_iterations st.init_realization

/-- One entry of `results['sources_stats']`. -/
structure SourceStat where
  source_id : ℕ
  total : ℕ
  processed : ℕ
  rejected : ℕ
  avg_wait_time : ℚ
deriving DecidableEq

/-- One entry of `results['devices_stats']`. -/
structure DeviceStat where
  device_id : ℕ
  processed : ℕ
  utilization : Bool
deriving DecidableEq

/-- The result record of `calculate_results` (the `tau` echo of the swept
parameter and the display-string snapshot `realization_data` are
presentation data and are omitted). -/
structure RealizationResult where
  total_requests : ℕ
  total_processed : ℕ
  total_rejected : ℕ
  total_reject_prob : ℚ
  sources_stats : List SourceStat
  devices_stats : List DeviceStat
deriving DecidableEq

/-- `calculate_results`. -/
def SMOState.calculate_results (st : SMOState) : RealizationResult :=
  let total_requests := (st.sources.map (·.generated_count)).sum
  let total_processed := (st.sources.map (·.processed_count)).sum
  { total_requests := total_requests,
    total_processed := total_processed,
    total_rejected := st.KOTK,
    total_reject_prob :=
      if 0 < total_requests then (st.KOTK : ℚ) / (total_requests : ℚ) else 0,
    sources_stats := st.sources.map (fun s =>
      { source_id := s.id,
        total := s.generated_count,
        processed := s.processed_count,
        rejected := s.rejected_count,
        avg_wait_time :=
          if 0 < s.processed_count then
            s.total_wait_time / (s.processed_count : ℚ)
          else 0 }),
    devices_stats := st.devices.map (fun d =>
      { device_id := d.id,
        processed := d.processed_count,
        utilization := decide (0 < d.processed_count) }) }

/-! ## Observables and invariants -/

/- The Batteries rational operations `Rat.add`, `Rat.mul` and `Rat.sub` are
sealed; reopening them lets `decide` evaluate the engine on the concrete
states below. -/
attribute [local semireducible] Rat.add Rat.mul Rat.sub

/-- The time of the event `boos_block` reported: the chosen source's next
arrival for codes `1..N`, the earliest device completion for `N + 1`. -/
def eventTimeOf (st : SMOState) (e : ℕ) : ETime :=
  if e ≤ st.sources.length then
    .fin (st.sources.getD (e - 1) default).next_arrival_time
  else listMinE (st.devices.map (·.finish_time))

/-- The buffer bookkeeping invariant: the slot arrays have the configured
capacity and `INDBUF` counts exactly the occupied slots. -/
def buffInv (st : SMOState) : Prop :=
  st.BUFT.length = st.buffer_capacity ∧
  st.BUFN.length = st.buffer_capacity ∧
  st.INDBUF = countOcc st.BUFN

/-- Every buffer entry is empty or names a configured source. -/
def bufnValid (st : SMOState) : Prop :=
  ∀ n ∈ st.BUFN, n = -1 ∨ (0 ≤ n ∧ n < (st.sources.length : ℤ))

/-- The server invariant of the spec: `finish_time = +∞` iff not busy. -/
def devicesParked (st : SMOState) : Prop :=
  ∀ d ∈ st.devices, (d.finish_time = ETime.inf ↔ d.is_busy = false)

/-- Number of buffered requests owned by source `sid`. -/
def bufferedOf (st : SMOState) (sid : ℕ) : ℕ :=
  (st.BUFN.filter (fun n => decide (n = (sid : ℤ)))).length

/-- Conservation for one source: everything it generated was processed,
rejected, or is still buffered. -/
def sourceConserved (st : SMOState) (sid : ℕ) : Prop :=
  (st.sources.getD sid default).generated_count =
    (st.sources.getD sid default).processed_count +
      (st.sources.getD sid default).rejected_count + bufferedOf st sid

/-- Conservation in aggregate over all sources. -/
def aggregateConserved (st : SMOState) : Prop :=
  (st.sources.map (·.generated_count)).sum =
    (st.sources.map (·.processed_count)).sum +
      (st.sources.map (·.rejected_count)).sum + countOcc st.BUFN

/-- No pending event lies in the past: `current_time` is below every
scheduled arrival and every device completion. -/
def timeInv (st : SMOState) : Prop :=
  (∀ s ∈ st.sources, st.current_time ≤ s.next_arrival_time) ∧
  (∀ d ∈ st.devices, (ETime.fin st.current_time).le d.finish_time = true)

/-- The oracle only produces nonnegative draws (true of both generators of
`src/utils/distributions.py` under nonnegative configured intervals). -/
def nonnegOracle (st : SMOState) : Prop :=
  ∀ n, 0 ≤ st.rand n

/-! ## Concrete scenario states -/

/-- A full two-slot buffer: slot 0 holds source 0's request (arrival 1),
slot 1 holds source 1's request (arrival 2); both devices busy. -/
def stC1 : SMOState :=
  { buffer_capacity := 2, min_requests := 100,
    sources := [⟨0, 1, 0, 0, 0, 10⟩, ⟨1, 1, 0, 0, 0, 11⟩],
    devices := [⟨0, true, some 0, 1, .fin 20⟩, ⟨1, true, some 1, 1, .fin 21⟩],
    current_time := 3, INDBUF := 2, BUFT := [1, 2], BUFN := [0, 1], KOTK := 0,
    TOG := [0, 0], current_packet := -1, packet_empty := true,
    rand := fun _ => 1, randIdx := 0 }

/-- The eviction scenario of the spec: capacity-1 buffer holding
`(source 1, arrival 2.0)`, both devices busy, and source 0 about to
arrive at `t = 3.0`. -/
def stC2 : SMOState :=
  { buffer_capacity := 1, min_requests := 100,
    sources := [⟨0, 1, 0, 0, 0, 3⟩, ⟨1, 1, 0, 0, 0, 50⟩],
    devices := [⟨0, true, some 0, 1, .fin 20⟩, ⟨1, true, some 1, 1, .fin 21⟩],
    current_time := 3, INDBUF := 1, BUFT := [2], BUFN := [1], KOTK := 0,
    TOG := [0, 0], current_packet := -1, packet_empty := true,
    rand := fun _ => 7, randIdx := 0 }

/-- Two sources, one device, capacity 1. The oracle drives: source 0
arrives at 1 (service 10), source 1 arrives at 2 and is buffered, source 0
arrives again at 5 and knocks source 1's request out. -/
def stC3 : SMOState :=
  { buffer_capacity := 1, min_requests := 100,
    sources := [⟨0, 0, 0, 0, 0, 0⟩, ⟨1, 0, 0, 0, 0, 0⟩],
    devices := [⟨0, false, none, 0, .inf⟩],
    current_time := 0, INDBUF := 0, BUFT := [0], BUFN := [-1], KOTK := 0,
    TOG := [0, 0], current_packet := -1, packet_empty := true,
    rand := fun n => (([1, 2, 10, 4, 100, 100] : List ℚ).getD n 0), randIdx := 0 }

/-- A sparse same-source buffer where the later arrival (time 5) sits in a
lower slot than the earlier one (time 3), and packet 0 is active. -/
def stC4 : SMOState :=
  { buffer_capacity := 2, min_requests := 100,
    sources := [⟨0, 3, 1, 0, 0, 30⟩, ⟨1, 0, 0, 0, 0, 40⟩],
    devices := [⟨0, true, some 0, 1, .fin 20⟩],
    current_time := 10, INDBUF := 2, BUFT := [5, 3], BUFN := [0, 0], KOTK := 0,
    TOG := [0, 0], current_packet := 0, packet_empty := false,
    rand := fun _ => 1, randIdx := 0 }

/-- Three sources, one device, capacity 1. The oracle drives: source 2
arrives at 1 and is served (finish 3), arrives again at 2 and is buffered;
at time 3 the device frees while only source 2 has buffered requests. -/
def stC5 : SMOState :=
  { buffer_capacity := 1, min_requests := 100,
    sources := [⟨0, 0, 0, 0, 0, 0⟩, ⟨1, 0, 0, 0, 0, 0⟩, ⟨2, 0, 0, 0, 0, 0⟩],
    devices := [⟨0, false, none, 0, .inf⟩],
    current_time := 0, INDBUF := 0, BUFT := [0], BUFN := [-1], KOTK := 0,
    TOG := [0, 0, 0], current_packet := -1, packet_empty := true,
    rand := fun n => (([10, 11, 1, 2, 1, 100] : List ℚ).getD n 0), randIdx := 0 }

/-! ## Basic lemmas about the helper functions -/

theorem ETime.leRefl (a : ETime) : a.le a = true := by
  cases a <;> simp [ETime.le]

theorem ETime.leTrans {a b c : ETime} (h1 : a.le b = true)
    (h2 : b.le c = true) : a.le c = true := by
  cases a <;> cases b <;> cases c <;> simp [ETime.le] at *
  exact le_trans h1 h2

theorem ETime.notLe {a b : ETime} (h : a.le b = false) : b.le a = true := by
  cases a <;> cases b <;> simp [ETime.le] at *
  exact le_of_lt h

theorem ETime.notLeLt {a b : ETime} (h : a.le b = false) : b.lt a = true := by
  cases a <;> cases b <;> simp [ETime.le, ETime.lt] at *
  exact h

theorem ETime.ltIrrefl (a : ETime) : a.lt a = false := by
  cases a <;> simp [ETime.lt]

theorem ETime.ltLe {a b : ETime} (h : a.lt b = true) : a.le b = true := by
  cases a <;> cases b <;> simp [ETime.lt, ETime.le] at *
  exact le_of_lt h

theorem ETime.ltAsymm {a b : ETime} (h : a.lt b = true) : b.lt a = false := by
  cases a <;> cases b <;> simp [ETime.lt] at *
  exact le_of_lt h

theorem ETime.ltTrans {a b c : ETime} (h1 : a.lt b = true)
    (h2 : b.lt c = true) : a.lt c = true := by
  cases a <;> cases b <;> cases c <;> simp [ETime.lt] at *
  exact lt_trans h1 h2

theorem ETime.leLtTrans {a b c : ETime} (h1 : a.le b = true)
    (h2 : b.lt c = true) : a.lt c = true := by
  cases a <;> cases b <;> cases c <;> simp [ETime.le, ETime.lt] at *
  exact lt_of_le_of_lt h1 h2

theorem modifyNth_length (f : α → α) (n : ℕ) (l : List α) :
    (modifyNth f n l).length = l.length := by
  induction l generalizing n with
  | nil => cases n <;> simp [modifyNth]
  | cons x xs ih =>
    cases n with
    | zero => simp [modifyNth]
    | succ m => simp [modifyNth, ih]

theorem mem_modifyNth (f : α → α) (n : ℕ) (l : List α) :
    ∀ y ∈ modifyNth f n l, y ∈ l ∨ ∃ x ∈ l, y = f x := by
  induction l generalizing n with
  | nil => intro y hy; cases n <;> simp [modifyNth] at hy
  | cons x xs ih =>
    intro y hy
    cases n with
    | zero =>
      simp [modifyNth] at hy
      rcases hy with h | h
      · exact Or.inr ⟨x, by simp, h⟩
      · exact Or.inl (by simp [h])
    | succ m =>
      simp [modifyNth] at hy
      rcases hy with h | h
      · exact Or.inl (by simp [h])
      · rcases ih m y h with h1 | ⟨z, hz, h2⟩
        · exact Or.inl (by simp [h1])
        · exact Or.inr ⟨z, by simp [hz], h2⟩

theorem firstIdx_le_length (p : α → Bool) (l : List α) :
    firstIdx p l ≤ l.length := by
  induction l with
  | nil => simp [firstIdx]
  | cons x xs ih =>
    by_cases h : p x
    · simp [firstIdx, h]
    · simp [firstIdx, h]; exact ih

theorem firstIdx_spec (p : α → Bool) (d : α) (l : List α)
    (h : ∃ x ∈ l, p x = true) :
    firstIdx p l < l.length ∧ p (l.getD (firstIdx p l) d) = true ∧
      ∀ j < firstIdx p l, p (l.getD j d) = false := by
  induction l with
  | nil => simp at h
  | cons x xs ih =>
    by_cases hx : p x
    · refine ⟨by simp [firstIdx, hx], by simp [firstIdx, hx, List.getD], ?_⟩
      intro j hj; simp [firstIdx, hx] at hj
    · have h' : ∃ y ∈ xs, p y = true := by
        rcases h with ⟨y, hy, hpy⟩
        rcases List.mem_cons.mp hy with rfl | hmem
        · exact absurd hpy (by simp [hx])
        · exact ⟨y, hmem, hpy⟩
      rcases ih h' with ⟨h1, h2, h3⟩
      refine ⟨?_, ?_, ?_⟩
      · simp [firstIdx, hx]; omega
      · simpa [firstIdx, hx] using h2
      · intro j hj
        simp [firstIdx, hx] at hj
        cases j with
        | zero => simpa using hx
        | succ k => simpa using h3 k (by omega)

theorem listMinQ_le (l : List ℚ) : ∀ x ∈ l, listMinQ l ≤ x := by
  induction l with
  | nil => simp
  | cons x xs ih =>
    intro y hy
    cases xs with
    | nil =>
      rcases List.mem_cons.mp hy with rfl | h
      · simp [listMinQ]
      · simp at h
    | cons z zs =>
      rcases List.mem_cons.mp hy with rfl | h
      · simp [listMinQ]
      · exact le_trans (by simp [listMinQ]) (ih y h)

theorem listMinQ_mem (l : List ℚ) (h : l ≠ []) : listMinQ l ∈ l := by
  induction l with
  | nil => simp at h
  | cons x xs ih =>
    cases xs with
    | nil => simp [listMinQ]
    | cons z zs =>
      rcases le_total x (listMinQ (z :: zs)) with hle | hle
      · simp [listMinQ, min_eq_left hle]
      · have := ih (by simp)
        simp [listMinQ, min_eq_right hle]
        exact Or.inr (by simpa using this)

theorem listMinE_cons (x : ETime) (xs : List ETime) :
    listMinE (x :: xs) = if (listMinE xs).le x = true then listMinE xs else x := by
  simp [listMinE]

theorem listMinE_le (l : List ETime) : ∀ x ∈ l, (listMinE l).le x = true := by
  induction l with
  | nil => simp
  | cons x xs ih =>
    intro y hy
    rw [listMinE_cons]
    by_cases hc : (listMinE xs).le x = true
    · rw [if_pos hc]
      rcases List.mem_cons.mp hy with rfl | h
      · exact hc
      · exact ih y h
    · rw [if_neg hc]
      have hxm : x.le (listMinE xs) = true :=
        ETime.notLe (by simpa using hc)
      rcases List.mem_cons.mp hy with rfl | h
      · exact ETime.leRefl y
      · exact ETime.leTrans hxm (ih y h)

theorem listMinE_mem (l : List ETime) :
    listMinE l ∈ l ∨ listMinE l = ETime.inf := by
  induction l with
  | nil => simp [listMinE]
  | cons x xs ih =>
    rw [listMinE_cons]
    by_cases hc : (listMinE xs).le x = true
    · rw [if_pos hc]
      rcases ih with h | h
      · exact Or.inl (List.mem_cons_of_mem x h)
      · exact Or.inr h
    · rw [if_neg hc]
      exact Or.inl (List.mem_cons_self x xs)

theorem findSlot_ge (p : ℤ) (l : List ℤ) : -1 ≤ findSlot p l := by
  induction l with
  | nil => simp [findSlot]
  | cons x xs ih =>
    by_cases hx : x = p
    · simp [findSlot, hx]
    · simp only [findSlot, if_neg hx]
      by_cases hr : findSlot p xs = -1
      · simp [hr]
      · simp [hr]; omega

theorem findSlot_mem (p : ℤ) (l : List ℤ) (h : p ∈ l) : 0 ≤ findSlot p l := by
  induction l with
  | nil => simp at h
  | cons x xs ih =>
    by_cases hx : x = p
    · simp [findSlot, hx]
    · have hmem : p ∈ xs := by
        rcases List.mem_cons.mp h with rfl | hm
        · exact absurd rfl hx
        · exact hm
      have h0 : 0 ≤ findSlot p xs := ih hmem
      have hne : findSlot p xs ≠ -1 := by omega
      simp only [findSlot, if_neg hx, if_neg hne]
      omega

theorem findSlot_spec (p : ℤ) (l : List ℤ) (h : 0 ≤ findSlot p l) :
    (findSlot p l).toNat < l.length ∧
      l.getD (findSlot p l).toNat (-1) = p ∧
      ∀ j < (findSlot p l).toNat, l.getD j (-1) ≠ p := by
  induction l with
  | nil => simp [findSlot] at h
  | cons x xs ih =>
    by_cases hx : x = p
    · refine ⟨by simp [findSlot, hx], by simp [findSlot, hx], ?_⟩
      intro j hj; simp [findSlot, hx] at hj
    · simp only [findSlot, if_neg hx] at h ⊢
      by_cases hr : findSlot p xs = -1
      · simp [hr] at h
      · have h0 : 0 ≤ findSlot p xs := by
          have := findSlot_ge p xs; omega
        rcases ih h0 with ⟨h1, h2, h3⟩
        have htn : (findSlot p xs + 1).toNat = (findSlot p xs).toNat + 1 := by
          omega
        rw [if_neg hr]
        refine ⟨?_, ?_, ?_⟩
        · rw [htn]; simpa using Nat.succ_lt_succ h1
        · rw [htn, List.getD_cons_succ]; exact h2
        · intro j hj
          rw [htn] at hj
          cases j with
          | zero => simpa using hx
          | succ k =>
            rw [List.getD_cons_succ]
            exact h3 k (by omega)

theorem countOcc_le_length (l : List ℤ) : countOcc l ≤ l.length := by
  induction l with
  | nil => simp [countOcc]
  | cons x xs ih =>
    by_cases hx : x = -1
    · simp [countOcc, hx]; omega
    · simp [countOcc, hx]; omega

theorem countOcc_pos_exists (l : List ℤ) (h : 0 < countOcc l) :
    ∃ i, i < l.length ∧ l.getD i (-1) ≠ -1 := by
  induction l with
  | nil => simp [countOcc] at h
  | cons x xs ih =>
    by_cases hx : x = -1
    · simp [countOcc, hx] at h
      rcases ih h with ⟨i, h1, h2⟩
      exact ⟨i + 1, by simpa using Nat.succ_lt_succ h1, by simpa using h2⟩
    · exact ⟨0, by simp, by simpa using hx⟩

theorem getD_neg_one_in_range {l : List ℤ} {i : ℕ} (h : l.getD i (-1) ≠ -1) :
    i < l.length := by
  by_contra hge
  exact h (List.getD_eq_default _ _ (Nat.le_of_not_lt hge))

theorem countOcc_set_occ (l : List ℤ) (i : ℕ) (v : ℤ)
    (hocc : l.getD i (-1) ≠ -1) (hv : v ≠ -1) :
    countOcc (l.set i v) = countOcc l := by
  induction l generalizing i with
  | nil => simp at hocc
  | cons x xs ih =>
    cases i with
    | zero =>
      simp only [List.getD_cons_zero] at hocc
      simp [countOcc, hocc, hv]
    | succ k =>
      simp only [List.getD_cons_succ] at hocc
      simp [countOcc, List.set, ih k hocc]

theorem countOcc_set_fill (l : List ℤ) (i : ℕ) (v : ℤ)
    (hlt : i < l.length) (hemp : l.getD i (-1) = -1) (hv : v ≠ -1) :
    countOcc (l.set i v) = countOcc l + 1 := by
  induction l generalizing i with
  | nil => simp at hlt
  | cons x xs ih =>
    cases i with
    | zero =>
      simp only [List.getD_cons_zero] at hemp
      simp [countOcc, hemp, hv]
      omega
    | succ k =>
      simp only [List.getD_cons_succ] at hemp
      simp only [List.set, countOcc]
      rw [ih k (by simpa using Nat.lt_of_succ_lt_succ hlt) hemp]
      omega

theorem countOcc_set_clear (l : List ℤ) (i : ℕ)
    (hocc : l.getD i (-1) ≠ -1) :
    countOcc l = countOcc (l.set i (-1)) + 1 := by
  induction l generalizing i with
  | nil => simp at hocc
  | cons x xs ih =>
    cases i with
    | zero =>
      simp only [List.getD_cons_zero] at hocc
      simp [countOcc, hocc]
      omega
    | succ k =>
      simp only [List.getD_cons_succ] at hocc
      simp only [List.set, countOcc]
      rw [ih k hocc]
      omega

/-- The running lexicographic minimum in `find_victim_for_rejection`
returns an element of the candidate list. -/
theorem victimFold_mem (c : ℤ × ℚ × ℕ) (cs : List (ℤ × ℚ × ℕ)) :
    (cs.foldl (fun best x =>
      if x.1 < best.1 ∨ (x.1 = best.1 ∧ x.2.1 < best.2.1) then x else best)
      c) ∈ c :: cs := by
  induction cs generalizing c with
  | nil => simp
  | cons y ys ih =>
    simp only [List.foldl_cons]
    by_cases hc : y.1 < c.1 ∨ (y.1 = c.1 ∧ y.2.1 < c.2.1)
    · rw [if_pos hc]
      have := ih y
      rcases List.mem_cons.mp this with h | h
      · simp [h]
      · simp [h]
    · rw [if_neg hc]
      have := ih c
      rcases List.mem_cons.mp this with h | h
      · simp [h]
      · simp [h]

/-- Whenever some slot is occupied, the victim index is a valid occupied
slot. -/
theorem find_victim_occupied (st : SMOState)
    (h : ∃ i, i < st.buffer_capacity ∧ st.BUFN.getD i (-1) ≠ -1) :
    st.find_victim_for_rejection < st.buffer_capacity ∧
      st.BUFN.getD st.find_victim_for_rejection (-1) ≠ -1 := by
  rcases h with ⟨i, hi, hocc⟩
  unfold SMOState.find_victim_for_rejection
  set f : ℕ → Option (ℤ × ℚ × ℕ) := fun i =>
    let n := st.BUFN.getD i (-1)
    if n ≠ -1 then some (n + 1, st.BUFT.getD i 0, i) else none with hf
  have hmem : (st.BUFN.getD i (-1) + 1, st.BUFT.getD i 0, i) ∈
      (List.range st.buffer_capacity).filterMap f := by
    apply List.mem_filterMap.mpr
    exact ⟨i, List.mem_range.mpr hi, by simp only [hf]; rw [if_pos hocc]⟩
  cases hcs : (List.range st.buffer_capacity).filterMap f with
  | nil => rw [hcs] at hmem; simp at hmem
  | cons c cs =>
    have hall : ∀ x ∈ c :: cs, x.2.2 < st.buffer_capacity ∧
        st.BUFN.getD x.2.2 (-1) ≠ -1 := by
      intro x hx
      rw [← hcs] at hx
      rcases List.mem_filterMap.mp hx with ⟨j, hj, hjx⟩
      simp only [hf] at hjx
      by_cases hjocc : st.BUFN.getD j (-1) ≠ -1
      · rw [if_pos hjocc] at hjx
        cases hjx
        exact ⟨List.mem_range.mp hj, hjocc⟩
      · rw [if_neg hjocc] at hjx; cases hjx
    exact hall _ (victimFold_mem c cs)

/-! ## Case split for the scheduler -/

theorem boos_cases (st : SMOState) :
    st.boos_block = firstIdx (fun s => decide (s.next_arrival_time =
        listMinQ (st.sources.map (·.next_arrival_time)))) st.sources + 1 ∨
      st.boos_block = st.sources.length + 1 := by
  by_cases hc : (ETime.fin (listMinQ (st.sources.map
      (·.next_arrival_time)))).le (listMinE (st.devices.map
      (·.finish_time))) = true
  · left; simp [SMOState.boos_block, hc]
  · right; simp [SMOState.boos_block, hc]

theorem boos_pos (st : SMOState) : 1 ≤ st.boos_block := by
  rcases boos_cases st with h | h <;> omega

theorem boos_le (st : SMOState) :
    st.boos_block ≤ st.sources.length + 1 := by
  rcases boos_cases st with h | h
  · have := firstIdx_le_length (fun s => decide (s.next_arrival_time =
      listMinQ (st.sources.map (·.next_arrival_time)))) st.sources
    omega
  · omega

/-! ## Claim theorems -/

/-- C1: at the failing input `stC1` — a full buffer where slot 0 holds
source 0's request (the highest-priority one, arrival 1) and slot 1 holds
source 1's request (the lowest-priority one, arrival 2) — the code's
eviction discipline returns slot 0, the HIGHEST-priority request, not the
lowest-priority slot 1 the claim (and the spec's stated intent) demands. -/
theorem C1_victim_is_highest_priority :
    stC1.find_victim_for_rejection = 0 ∧
      stC1.BUFN.getD 0 (-1) = 0 ∧ stC1.BUFN.getD 1 (-1) = 1 ∧
      countOcc stC1.BUFN = stC1.buffer_capacity := by
  refine ⟨by decide, by decide, by decide, by decide⟩

/-- C2: the spec's eviction scenario (capacity-1 buffer holding source 1's
request from `t = 2`, source 0 arrives at `t = 3`, every device busy): the
code increments the ARRIVING source 0's rejected counter and leaves the
evicted source 1's counter untouched, while the slot does come to hold
`(source 0, arrival 3)` as the claim says. -/
theorem C2_reject_charged_to_arriving_source :
    ((stC2.bas_block 0).sources.getD 0 default).rejected_count = 1 ∧
      ((stC2.bas_block 0).sources.getD 1 default).rejected_count = 0 ∧
      (stC2.bas_block 0).BUFN = [0] ∧
      (stC2.bas_block 0).BUFT = [3] ∧
      (stC2.bas_block 0).KOTK = 1 := by
  refine ⟨by decide, by decide, by decide, by decide, by decide⟩

/-- C3: after three events of the `stC3` realization (source 0 served
directly, source 1 buffered, then source 0's second arrival knocks source
1's request out), per-source conservation fails for both sources — source
1 has generated 1 request but processed, rejected and buffered are all 0 —
while the aggregate balance still holds. -/
theorem C3_per_source_conservation_fails :
    ¬ sourceConserved (runLoop 3 stC3.init_realization) 1 ∧
      ¬ sourceConserved (runLoop 3 stC3.init_realization) 0 ∧
      aggregateConserved (runLoop 3 stC3.init_realization) := by
  unfold sourceConserved aggregateConserved bufferedOf
  refine ⟨by decide, by decide, by decide⟩

/-- C4 counterexample: in state `stC4` the active packet is source 0,
which has two buffered requests — slot 0 with arrival time 5 and slot 1
with arrival time 3 — and `select_request_from_buffer` returns slot 0,
whose arrival time is NOT the earliest one of the active source. -/
theorem C4_counterexample :
    stC4.current_packet = 0 ∧ stC4.packet_empty = false ∧
      stC4.BUFN = [0, 0] ∧ stC4.BUFT = [5, 3] ∧
      stC4.select_request_from_buffer.1 = 0 ∧
      ¬ (stC4.BUFT.getD 0 0 ≤ stC4.BUFT.getD 1 0) := by
  refine ⟨by decide, by decide, by decide, by decide, by decide, by decide⟩

/-- C5 counterexample: in the three-source realization `stC5` the server
invariant `finish_time = +∞ ↔ not busy` holds after two events, and the
third transition (the device frees while only source 2 has buffered
requests, and `select_new_packet` only ever tries packets 0 and 1) breaks
it: the freed device keeps its stale finite finish time 3. -/
theorem C5_counterexample :
    stC5.sources.length = 3 ∧
      devicesParked (runLoop 2 stC5.init_realization) ∧
      ¬ devicesParked (runLoop 3 stC5.init_realization) ∧
      ((runLoop 3 stC5.init_realization).devices.getD 0 default).is_busy
          = false ∧
      ((runLoop 3 stC5.init_realization).devices.getD 0 default).finish_time
          = ETime.fin 3 := by
  unfold devicesParked
  refine ⟨by decide, by decide, by decide, by decide, by decide⟩

/-- C10: the scheduler can only answer an event code in `1 .. N + 1` — it
has no code path returning `0` — so the `event_type == 0` break in
`run_realization` is dead and the loop can only stop on the stopping
condition or the iteration ceiling. -/
theorem C10_no_zero_event (st : SMOState) :
    (1 ≤ st.boos_block ∧ st.boos_block ≤ st.sources.length + 1) ∧
      st.loopBody ≠ none := by
  refine ⟨⟨boos_pos st, boos_le st⟩, ?_⟩
  unfold SMOState.loopBody
  have h : st.boos_block ≠ 0 := by have := boos_pos st; omega
  simp [h]

/-- C4 amended: when the active packet is set, not marked exhausted, and
owns at least one buffered request, `select_request_from_buffer` returns
the LOWEST-INDEXED slot holding the active source's request — not the one
with the earliest arrival time — and leaves the buffer arrays unchanged. -/
theorem C4_select_lowest_index (st : SMOState)
    (hp : st.current_packet ≠ -1) (he : st.packet_empty = false)
    (hmem : st.current_packet ∈ st.BUFN) :
    0 ≤ st.select_request_from_buffer.1 ∧
      st.BUFN.getD st.select_request_from_buffer.1.toNat (-1) =
        st.current_packet ∧
      (∀ j < st.select_request_from_buffer.1.toNat,
        st.BUFN.getD j (-1) ≠ st.current_packet) ∧
      st.select_request_from_buffer.2.BUFN = st.BUFN ∧
      st.select_request_from_buffer.2.BUFT = st.BUFT := by
  have hcond : ¬ (st.current_packet = -1 ∨ st.packet_empty = true) := by
    simp [hp, he]
  have hi : 0 ≤ findSlot st.current_packet st.BUFN := findSlot_mem _ _ hmem
  rcases findSlot_spec st.current_packet st.BUFN hi with ⟨h1, h2, h3⟩
  simp only [SMOState.select_request_from_buffer, if_neg hcond, if_pos hi]
  refine ⟨hi, h2, h3, ?_, ?_⟩ <;> simp

/-- C4 witness: the amended selection rule evaluated on `stC4`. -/
theorem C4_select_lowest_index_witness :
    stC4.current_packet ≠ -1 ∧ stC4.packet_empty = false ∧
      stC4.current_packet ∈ stC4.BUFN ∧
      (0 ≤ stC4.select_request_from_buffer.1 ∧
        stC4.BUFN.getD stC4.select_request_from_buffer.1.toNat (-1) =
          stC4.current_packet ∧
        (∀ j < stC4.select_request_from_buffer.1.toNat,
          stC4.BUFN.getD j (-1) ≠ stC4.current_packet) ∧
        stC4.select_request_from_buffer.2.BUFN = stC4.BUFN ∧
        stC4.select_request_from_buffer.2.BUFT = stC4.BUFT) :=
  ⟨by decide, by decide, by decide,
    C4_select_lowest_index stC4 (by decide) (by decide) (by decide)⟩

theorem ETime.le_fin {a b : ℚ} :
    (ETime.fin a).le (ETime.fin b) = true ↔ a ≤ b := by
  simp [ETime.le]

/-- C6: the scheduler picks the event with the smallest time — the chosen
event's time is below every pending arrival and every device completion —
an exact arrival/completion tie yields an arrival (codes `1..N`), and the
arrival branch picks the smallest source id among the earliest arrivals. -/
theorem C6_scheduler_minimal (st : SMOState) (hs : st.sources ≠ []) :
    (∀ s ∈ st.sources,
        (eventTimeOf st st.boos_block).le (.fin s.next_arrival_time) = true) ∧
      (∀ d ∈ st.devices,
        (eventTimeOf st st.boos_block).le d.finish_time = true) ∧
      (ETime.fin (listMinQ (st.sources.map (·.next_arrival_time))) =
          listMinE (st.devices.map (·.finish_time)) →
        1 ≤ st.boos_block ∧ st.boos_block ≤ st.sources.length) ∧
      (st.boos_block ≤ st.sources.length →
        (st.sources.getD (st.boos_block - 1) default).next_arrival_time =
            listMinQ (st.sources.map (·.next_arrival_time)) ∧
          ∀ j < st.boos_block - 1,
            (st.sources.getD j default).next_arrival_time ≠
              listMinQ (st.sources.map (·.next_arrival_time))) := by
  have hmem : listMinQ (st.sources.map (·.next_arrival_time)) ∈
      st.sources.map (·.next_arrival_time) :=
    listMinQ_mem _ (by simpa using hs)
  rcases List.mem_map.mp hmem with ⟨s0, hs0, hs0e⟩
  have hattain : ∃ x ∈ st.sources, (fun s => decide (s.next_arrival_time =
      listMinQ (st.sources.map (·.next_arrival_time)))) x = true :=
    ⟨s0, hs0, by simpa using hs0e⟩
  rcases firstIdx_spec _ default st.sources hattain with ⟨hI1, hI2, hI3⟩
  have hminA : ∀ s ∈ st.sources,
      listMinQ (st.sources.map (·.next_arrival_time)) ≤
        s.next_arrival_time := by
    intro s hsm
    exact listMinQ_le _ _ (List.mem_map.mpr ⟨s, hsm, rfl⟩)
  have hminF : ∀ d ∈ st.devices,
      (listMinE (st.devices.map (·.finish_time))).le d.finish_time = true := by
    intro d hdm
    exact listMinE_le _ _ (List.mem_map.mpr ⟨d, hdm, rfl⟩)
  by_cases hc : (ETime.fin (listMinQ (st.sources.map
      (·.next_arrival_time)))).le (listMinE (st.devices.map
      (·.finish_time))) = true
  · have he : st.boos_block = firstIdx (fun s =>
        decide (s.next_arrival_time = listMinQ (st.sources.map
          (·.next_arrival_time)))) st.sources + 1 := by
      simp [SMOState.boos_block, hc]
    have hele : st.boos_block ≤ st.sources.length := by omega
    have hev : eventTimeOf st st.boos_block =
        ETime.fin (listMinQ (st.sources.map (·.next_arrival_time))) := by
      unfold eventTimeOf
      rw [if_pos hele, he]
      simp only [Nat.add_sub_cancel]
      congr 1
      exact of_decide_eq_true hI2
    refine ⟨?_, ?_, ?_, ?_⟩
    · intro s hsm
      rw [hev]
      exact ETime.le_fin.mpr (hminA s hsm)
    · intro d hdm
      rw [hev]
      exact ETime.leTrans hc (hminF d hdm)
    · intro _
      exact ⟨boos_pos st, hele⟩
    · intro _
      constructor
      · rw [he]; simpa using of_decide_eq_true hI2
      · intro j hj
        rw [he] at hj
        have := hI3 j (by omega)
        simpa using this
  · have he : st.boos_block = st.sources.length + 1 := by
      simp [SMOState.boos_block, hc]
    have hle2 : (listMinE (st.devices.map (·.finish_time))).le
        (ETime.fin (listMinQ (st.sources.map (·.next_arrival_time)))) =
          true := ETime.notLe (by simpa using hc)
    have hev : eventTimeOf st st.boos_block =
        listMinE (st.devices.map (·.finish_time)) := by
      unfold eventTimeOf
      rw [if_neg (by omega)]
    refine ⟨?_, ?_, ?_, ?_⟩
    · intro s hsm
      rw [hev]
      exact ETime.leTrans hle2 (ETime.le_fin.mpr (hminA s hsm))
    · intro d hdm
      rw [hev]
      exact hminF d hdm
    · intro htie
      rw [htie] at hc
      exact absurd (ETime.leRefl _) hc
    · intro hle
      rw [he] at hle
      omega

/-- C6 witness: the scheduler minimality facts evaluated on `stC1`. -/
theorem C6_scheduler_minimal_witness :
    stC1.sources ≠ [] ∧
      ((∀ s ∈ stC1.sources,
          (eventTimeOf stC1 stC1.boos_block).le
            (.fin s.next_arrival_time) = true) ∧
        (∀ d ∈ stC1.devices,
          (eventTimeOf stC1 stC1.boos_block).le d.finish_time = true) ∧
        (ETime.fin (listMinQ (stC1.sources.map (·.next_arrival_time))) =
            listMinE (stC1.devices.map (·.finish_time)) →
          1 ≤ stC1.boos_block ∧ stC1.boos_block ≤ stC1.sources.length) ∧
        (stC1.boos_block ≤ stC1.sources.length →
          (stC1.sources.getD (stC1.boos_block - 1)
                default).next_arrival_time =
              listMinQ (stC1.sources.map (·.next_arrival_time)) ∧
            ∀ j < stC1.boos_block - 1,
              (stC1.sources.getD j default).next_arrival_time ≠
                listMinQ (stC1.sources.map (·.next_arrival_time)))) :=
  ⟨by decide, C6_scheduler_minimal stC1 (by decide)⟩

/-- C10 witness: the event-code bounds evaluated on `stC1`. -/
theorem C10_no_zero_event_witness :
    (1 ≤ stC1.boos_block ∧ stC1.boos_block ≤ stC1.sources.length + 1) ∧
      stC1.loopBody ≠ none :=
  C10_no_zero_event stC1

/-! ## Shape lemmas: each block as an explicit record update -/

theorem bms32_eq (st : SMOState) (sid did : ℕ) :
    st.bms32_block sid did = { st with
      devices := modifyNth (fun d => { d with
        finish_time := .fin (st.current_time + st.rand st.randIdx),
        is_busy := true,
        current_source := some sid,
        processed_count := d.processed_count + 1 }) did st.devices,
      sources := modifyNth (fun s => { s with
        processed_count := s.processed_count + 1,
        generated_count := s.generated_count + 1,
        next_arrival_time := st.current_time + st.rand (st.randIdx + 1) })
        sid st.sources,
      randIdx := st.randIdx + 2 } := rfl

theorem bms11_eq (st : SMOState) (sid : ℕ) :
    st.bms11_block sid = { st with
      KOTK := st.KOTK + 1,
      sources := modifyNth (fun s => { s with
          generated_count := s.generated_count + 1,
          next_arrival_time := st.current_time + st.rand st.randIdx }) sid
        (modifyNth (fun s => { s with
          rejected_count := s.rejected_count + 1 }) sid st.sources),
      BUFT := st.BUFT.set st.find_victim_for_rejection
        (st.sources.getD sid default).next_arrival_time,
      BUFN := st.BUFN.set st.find_victim_for_rejection (sid : ℤ),
      randIdx := st.randIdx + 1 } := rfl

theorem bms12_eq_found (st : SMOState) (sid : ℕ)
    (h : 0 ≤ findSlot (-1) st.BUFN) :
    st.bms12_block sid = { st with
      BUFT := st.BUFT.set (findSlot (-1) st.BUFN).toNat
        (st.sources.getD sid default).next_arrival_time,
      BUFN := st.BUFN.set (findSlot (-1) st.BUFN).toNat (sid : ℤ),
      INDBUF := st.INDBUF + 1,
      sources := modifyNth (fun s => { s with
        generated_count := s.generated_count + 1,
        next_arrival_time := st.current_time + st.rand st.randIdx })
        sid st.sources,
      randIdx := st.randIdx + 1 } := by
  unfold SMOState.bms12_block
  simp only []
  rw [if_pos h]
  rfl

theorem bms12_eq_miss (st : SMOState) (sid : ℕ)
    (h : ¬ 0 ≤ findSlot (-1) st.BUFN) :
    st.bms12_block sid = { st with
      sources := modifyNth (fun s => { s with
        generated_count := s.generated_count + 1,
        next_arrival_time := st.current_time + st.rand st.randIdx })
        sid st.sources,
      randIdx := st.randIdx + 1 } := by
  unfold SMOState.bms12_block
  simp only []
  rw [if_neg h]
  rfl

theorem bas_eq_free (st : SMOState) (sid did : ℕ)
    (h : find_free_device st.devices = some did) :
    st.bas_block sid = st.bms32_block sid did := by
  unfold SMOState.bas_block
  rw [h]

theorem bas_eq_write (st : SMOState) (sid : ℕ)
    (h : find_free_device st.devices = none)
    (h2 : st.INDBUF < st.buffer_capacity) :
    st.bas_block sid = st.bms12_block sid := by
  unfold SMOState.bas_block
  rw [h]
  exact if_pos h2

theorem bas_eq_reject (st : SMOState) (sid : ℕ)
    (h : find_free_device st.devices = none)
    (h2 : ¬ st.INDBUF < st.buffer_capacity) :
    st.bas_block sid = st.bms11_block sid := by
  unfold SMOState.bas_block
  rw [h]
  exact if_neg h2

theorem snp_frame (st : SMOState) :
    st.select_new_packet.BUFN = st.BUFN ∧
      st.select_new_packet.BUFT = st.BUFT ∧
      st.select_new_packet.INDBUF = st.INDBUF ∧
      st.select_new_packet.buffer_capacity = st.buffer_capacity ∧
      st.select_new_packet.min_requests = st.min_requests ∧
      st.select_new_packet.sources = st.sources ∧
      st.select_new_packet.devices = st.devices ∧
      st.select_new_packet.current_time = st.current_time ∧
      st.select_new_packet.rand = st.rand ∧
      st.select_new_packet.randIdx = st.randIdx ∧
      st.select_new_packet.KOTK = st.KOTK ∧
      st.select_new_packet.TOG = st.TOG := by
  unfold SMOState.select_new_packet
  simp only []
  split
  · exact ⟨rfl, rfl, rfl, rfl, rfl, rfl, rfl, rfl, rfl, rfl, rfl, rfl⟩
  · split
    · exact ⟨rfl, rfl, rfl, rfl, rfl, rfl, rfl, rfl, rfl, rfl, rfl, rfl⟩
    · exact ⟨rfl, rfl, rfl, rfl, rfl, rfl, rfl, rfl, rfl, rfl, rfl, rfl⟩

theorem filter_occ_not_empty {st : SMOState} (h : ∃ n ∈ st.BUFN, n ≠ -1) :
    ¬ (st.BUFN.filter (fun n => decide (n ≠ -1))).isEmpty = true := by
  rcases h with ⟨n, hn, hne⟩
  have hmemf : n ∈ st.BUFN.filter (fun n => decide (n ≠ -1)) :=
    List.mem_filter.mpr ⟨hn, by simpa using hne⟩
  cases hfe : st.BUFN.filter (fun n => decide (n ≠ -1)) with
  | nil => rw [hfe] at hmemf; simp at hmemf
  | cons a as => simp [List.isEmpty]

theorem snp_packet_nonneg (st : SMOState) (h : ∃ n ∈ st.BUFN, n ≠ -1) :
    st.select_new_packet.current_packet = 0 ∨
      st.select_new_packet.current_packet = 1 := by
  have hne' := filter_occ_not_empty h
  unfold SMOState.select_new_packet
  simp only []
  rw [if_neg hne']
  split
  · left; rfl
  · right; rfl

/-- `select_request_from_buffer` never touches the buffer arrays, the
counters, the clock, the sources or the devices. -/
theorem srb_frame (st : SMOState) :
    st.select_request_from_buffer.2.BUFN = st.BUFN ∧
      st.select_request_from_buffer.2.BUFT = st.BUFT ∧
      st.select_request_from_buffer.2.INDBUF = st.INDBUF ∧
      st.select_request_from_buffer.2.buffer_capacity = st.buffer_capacity ∧
      st.select_request_from_buffer.2.min_requests = st.min_requests ∧
      st.select_request_from_buffer.2.sources = st.sources ∧
      st.select_request_from_buffer.2.devices = st.devices ∧
      st.select_request_from_buffer.2.current_time = st.current_time ∧
      st.select_request_from_buffer.2.rand = st.rand ∧
      st.select_request_from_buffer.2.randIdx = st.randIdx ∧
      st.select_request_from_buffer.2.KOTK = st.KOTK ∧
      st.select_request_from_buffer.2.TOG = st.TOG := by
  have hsnp := snp_frame st
  have hsnp2 := snp_frame st.select_new_packet
  unfold SMOState.select_request_from_buffer
  simp only []
  split
  · split
    · simpa using hsnp
    · split
      · constructor
        · rw [hsnp2.1, hsnp.1]
        · refine ⟨?_, ?_, ?_, ?_, ?_, ?_, ?_, ?_, ?_, ?_, ?_⟩ <;>
            simp [hsnp2, hsnp.1, hsnp.2.1, hsnp.2.2.1, hsnp.2.2.2.1,
              hsnp.2.2.2.2.1, hsnp.2.2.2.2.2.1, hsnp.2.2.2.2.2.2.1,
              hsnp.2.2.2.2.2.2.2.1, hsnp.2.2.2.2.2.2.2.2.1,
              hsnp.2.2.2.2.2.2.2.2.2.1, hsnp.2.2.2.2.2.2.2.2.2.2.1,
              hsnp.2.2.2.2.2.2.2.2.2.2.2]
      · constructor
        · rw [hsnp2.1, hsnp.1]
        · refine ⟨?_, ?_, ?_, ?_, ?_, ?_, ?_, ?_, ?_, ?_, ?_⟩ <;>
            simp [hsnp2, hsnp.1, hsnp.2.1, hsnp.2.2.1, hsnp.2.2.2.1,
              hsnp.2.2.2.2.1, hsnp.2.2.2.2.2.1, hsnp.2.2.2.2.2.2.1,
              hsnp.2.2.2.2.2.2.2.1, hsnp.2.2.2.2.2.2.2.2.1,
              hsnp.2.2.2.2.2.2.2.2.2.1, hsnp.2.2.2.2.2.2.2.2.2.2.1,
              hsnp.2.2.2.2.2.2.2.2.2.2.2]
  · split
    · exact ⟨rfl, rfl, rfl, rfl, rfl, rfl, rfl, rfl, rfl, rfl, rfl, rfl⟩
    · split
      · simpa using hsnp
      · simpa using hsnp

theorem findSlot_occ {p : ℤ} {l : List ℤ} (hp : p ≠ -1)
    (h : 0 ≤ findSlot p l) :
    (findSlot p l).toNat < l.length ∧
      l.getD (findSlot p l).toNat (-1) ≠ -1 := by
  rcases findSlot_spec p l h with ⟨h1, h2, _⟩
  exact ⟨h1, by rw [h2]; exact hp⟩

/-- Under the guard `INDBUF > 0` (an occupied slot exists), the selection
either reports `-1` or an occupied slot index. -/
theorem srb_sel_spec (st : SMOState) (h : ∃ n ∈ st.BUFN, n ≠ -1) :
    st.select_request_from_buffer.1 = -1 ∨
      (0 ≤ st.select_request_from_buffer.1 ∧
        st.select_request_from_buffer.1.toNat < st.BUFN.length ∧
        st.BUFN.getD st.select_request_from_buffer.1.toNat (-1) ≠ -1) := by
  have hsnp := snp_frame st
  unfold SMOState.select_request_from_buffer
  simp only []
  split
  · -- the packet was unset or exhausted: a fresh packet is selected first
    have hp : st.select_new_packet.current_packet ≠ -1 := by
      rcases snp_packet_nonneg st h with h0 | h0 <;> rw [h0] <;> decide
    split
    · right
      rename_i hge
      rw [hsnp.1] at hge ⊢
      exact ⟨hge, findSlot_occ hp hge⟩
    · have h2 : ∃ n ∈ st.select_new_packet.BUFN, n ≠ -1 := by
        rw [hsnp.1]; exact h
      have hsnp2 := snp_frame st.select_new_packet
      have hp2 : st.select_new_packet.select_new_packet.current_packet ≠
          -1 := by
        rcases snp_packet_nonneg st.select_new_packet h2 with h0 | h0 <;>
          rw [h0] <;> decide
      split
      · right
        rename_i hge
        rw [hsnp2.1, hsnp.1] at hge ⊢
        exact ⟨hge, findSlot_occ hp2 hge⟩
      · left; rfl
  · -- the packet is set and not exhausted
    rename_i hcond
    have hp : st.current_packet ≠ -1 := by
      intro hc; exact hcond (Or.inl hc)
    split
    · right
      rename_i hge
      exact ⟨hge, findSlot_occ hp hge⟩
    · have hsnp2 := snp_frame st
      have hp2 : st.select_new_packet.current_packet ≠ -1 := by
        rcases snp_packet_nonneg st h with h0 | h0 <;> rw [h0] <;> decide
      split
      · right
        rename_i hge
        rw [hsnp2.1] at hge ⊢
        exact ⟨hge, findSlot_occ hp2 hge⟩
      · left; rfl

theorem neg_one_mem_of_countOcc_lt (l : List ℤ) (h : countOcc l < l.length) :
    (-1 : ℤ) ∈ l := by
  induction l with
  | nil => simp at h
  | cons x xs ih =>
    by_cases hx : x = -1
    · simp [hx]
    · have hlt : countOcc xs < xs.length := by
        simp [countOcc, hx] at h; omega
      exact List.mem_cons_of_mem _ (ih hlt)

theorem mem_of_getD {l : List ℤ} {i : ℕ} (h : i < l.length) (d : ℤ) :
    l.getD i d ∈ l := by
  rw [List.getD_eq_getElem l d h]
  exact List.getElem_mem h

theorem occupied_entry_exists (st : SMOState) (h : 0 < countOcc st.BUFN) :
    ∃ n ∈ st.BUFN, n ≠ -1 := by
  rcases countOcc_pos_exists _ h with ⟨i, hi, hgd⟩
  exact ⟨st.BUFN.getD i (-1), mem_of_getD hi (-1), hgd⟩

/-! ## Preservation of the buffer invariant -/

theorem buffInv_bms32 (st : SMOState) (sid did : ℕ) (h : buffInv st) :
    buffInv (st.bms32_block sid did) := by
  rw [bms32_eq]; exact h

theorem buffInv_bms12 (st : SMOState) (sid : ℕ) (h : buffInv st)
    (hlt : st.INDBUF < st.buffer_capacity) :
    buffInv (st.bms12_block sid) := by
  obtain ⟨hT, hN, hC⟩ := h
  have hcount : countOcc st.BUFN < st.BUFN.length := by
    rw [hN, ← hC]; exact hlt
  have hwp : 0 ≤ findSlot (-1) st.BUFN :=
    findSlot_mem _ _ (neg_one_mem_of_countOcc_lt _ hcount)
  rcases findSlot_spec (-1) st.BUFN hwp with ⟨hs1, hs2, _⟩
  rw [bms12_eq_found st sid hwp]
  refine ⟨by simpa [List.length_set] using hT,
    by simpa [List.length_set] using hN, ?_⟩
  show st.INDBUF + 1 = countOcc (st.BUFN.set (findSlot (-1) st.BUFN).toNat
    (sid : ℤ))
  rw [countOcc_set_fill _ _ _ hs1 hs2 (by omega), hC]

theorem buffInv_bms11 (st : SMOState) (sid : ℕ) (h : buffInv st)
    (hge : ¬ st.INDBUF < st.buffer_capacity) :
    buffInv (st.bms11_block sid) := by
  obtain ⟨hT, hN, hC⟩ := h
  rw [bms11_eq]
  by_cases hpos : 0 < countOcc st.BUFN
  · rcases countOcc_pos_exists _ hpos with ⟨i, hi, hocc⟩
    obtain ⟨hv1, hv2⟩ := find_victim_occupied st ⟨i, by rw [← hN]; exact hi,
      hocc⟩
    refine ⟨by simpa [List.length_set] using hT,
      by simpa [List.length_set] using hN, ?_⟩
    show st.INDBUF = countOcc (st.BUFN.set st.find_victim_for_rejection
      (sid : ℤ))
    rw [countOcc_set_occ _ _ _ hv2 (by omega)]
    exact hC
  · have hlen := countOcc_le_length st.BUFN
    have hcap : st.buffer_capacity = 0 := by omega
    have hind : st.INDBUF = 0 := by omega
    have hNnil : st.BUFN = [] :=
      List.eq_nil_of_length_eq_zero (by rw [hN, hcap])
    have hTnil : st.BUFT = [] :=
      List.eq_nil_of_length_eq_zero (by rw [hT, hcap])
    refine ⟨?_, ?_, ?_⟩ <;> simp [hNnil, hTnil, hcap, hind, countOcc]

theorem buffInv_bms31 (st : SMOState) (did : ℕ) (h : buffInv st)
    (hpos : 0 < st.INDBUF) : buffInv (st.bms31_block did) := by
  obtain ⟨hT, hN, hC⟩ := h
  have hocc : ∃ n ∈ st.BUFN, n ≠ -1 :=
    occupied_entry_exists st (by omega)
  have hspec := srb_sel_spec st hocc
  have hframe := srb_frame st
  unfold SMOState.bms31_block
  rcases hpr : st.select_request_from_buffer with ⟨sel, st2⟩
  rw [hpr] at hspec hframe
  dsimp only at hspec hframe
  obtain ⟨fN, fT, fI, fC, _, _, _, _, _, _, _, _⟩ := hframe
  simp only []
  split
  · rename_i hge
    rcases hspec with hneg | ⟨_, hlt, hoccsel⟩
    · rw [hneg] at hge; exact absurd hge (by decide)
    · have hguard : sel.toNat < st2.buffer_capacity := by
        rw [fC, ← hN, ← fN]; exact (by rw [fN]; exact hlt)
      unfold SMOState.remove_from_buffer
      rw [if_pos (by exact hguard)]
      refine ⟨?_, ?_, ?_⟩
      · simpa [List.length_set, fT, fC] using hT
      · simpa [List.length_set, fN, fC] using hN
      · show st2.INDBUF - 1 = countOcc (st2.BUFN.set sel.toNat (-1))
        rw [fN, fI]
        have hclear := countOcc_set_clear st.BUFN sel.toNat hoccsel
        omega
  · exact ⟨by rw [fT, fC]; exact hT, by rw [fN, fC]; exact hN,
      by rw [fI, fN]; exact hC⟩

theorem buffInv_bas3 (st : SMOState) (did : ℕ) (h : buffInv st) :
    buffInv (st.bas3_block did) := by
  unfold SMOState.bas3_block
  simp only []
  split
  · rename_i hpos
    exact buffInv_bms31 _ did (by exact h) (by exact hpos)
  · exact h

theorem buffInv_bas (st : SMOState) (sid : ℕ) (h : buffInv st) :
    buffInv (st.bas_block sid) := by
  unfold SMOState.bas_block
  cases hfd : find_free_device st.devices with
  | some did => exact buffInv_bms32 st sid did h
  | none =>
    simp only []
    split
    · rename_i hlt
      exact buffInv_bms12 st sid h hlt
    · rename_i hge
      exact buffInv_bms11 st sid h hge

theorem buffInv_process (st : SMOState) (e : ℕ) (h : buffInv st) :
    buffInv (st.process_event e) := by
  unfold SMOState.process_event
  split
  · exact buffInv_bas st _ h
  · split
    · exact buffInv_bas3 st _ h
    · exact h

theorem buffInv_loopBody (st st' : SMOState) (h : buffInv st)
    (hb : st.loopBody = some st') : buffInv st' := by
  unfold SMOState.loopBody at hb
  simp only [] at hb
  split at hb
  · exact absurd hb (by simp)
  · split at hb <;>
    · cases hb
      exact buffInv_process _ _ (by exact h)

theorem buffInv_runLoop (fuel : ℕ) (st : SMOState) (h : buffInv st) :
    buffInv (runLoop fuel st) := by
  induction fuel generalizing st with
  | zero => exact h
  | succ n ih =>
    unfold runLoop
    split
    · exact h
    · cases hb : st.loopBody with
      | none => exact h
      | some st' => exact ih st' (buffInv_loopBody st st' h hb)

/-- The per-source reset fold of `initialize_realization` only consumes
oracle values: its state component advances `randIdx` by one per source. -/
theorem initFold_state (l : List Source) (acc : List Source × SMOState) :
    (l.foldl (fun (acc : List Source × SMOState) s =>
      let (l, st) := acc
      let (iv, st) := st.draw
      ({ s with
          generated_count := 0,
          processed_count := 0,
          rejected_count := 0,
          total_wait_time := 0,
          next_arrival_time := iv } :: l, st)) acc).2 =
    { acc.2 with randIdx := acc.2.randIdx + l.length } := by
  induction l generalizing acc with
  | nil =>
    show acc.2 = { acc.2 with randIdx := acc.2.randIdx + 0 }
    simp
  | cons s ss ih =>
    rw [List.foldl_cons]
    rw [ih]
    show ({ acc.2.draw.2 with
        randIdx := acc.2.draw.2.randIdx + ss.length } : SMOState) = _
    simp [SMOState.draw]
    omega

/-- The per-source reset fold accumulates (reversed) exactly one reset
source per input source. -/
theorem initFold_length (l : List Source) (acc : List Source × SMOState) :
    (l.foldl (fun (acc : List Source × SMOState) s =>
      let (l, st) := acc
      let (iv, st) := st.draw
      ({ s with
          generated_count := 0,
          processed_count := 0,
          rejected_count := 0,
          total_wait_time := 0,
          next_arrival_time := iv } :: l, st)) acc).1.length =
    acc.1.length + l.length := by
  induction l generalizing acc with
  | nil => simp
  | cons s ss ih =>
    rw [List.foldl_cons, ih]
    simp
    omega

theorem countOcc_replicate (n : ℕ) : countOcc (List.replicate n (-1)) = 0 := by
  induction n with
  | zero => simp [countOcc]
  | succ k ih => simp [List.replicate, countOcc, ih]

theorem buffInv_init (st : SMOState) : buffInv st.init_realization := by
  unfold SMOState.init_realization
  simp only []
  exact ⟨by simp, by simp, by simp [countOcc_replicate]⟩

/-- C7: at every point of a realization (after reset and after each of the
`fuel` processed events) the occupied count equals the number of non-empty
slots and is bounded by the buffer capacity (it is nonnegative by type). -/
theorem C7_buffer_invariant (st : SMOState) (fuel : ℕ) :
    (runLoop fuel st.init_realization).INDBUF =
        countOcc (runLoop fuel st.init_realization).BUFN ∧
      (runLoop fuel st.init_realization).INDBUF ≤
        (runLoop fuel st.init_realization).buffer_capacity := by
  obtain ⟨hT, hN, hC⟩ := buffInv_runLoop fuel _ (buffInv_init st)
  exact ⟨hC, by rw [hC, ← hN]; exact countOcc_le_length _⟩

/-! ## Frame facts: what one event step never changes -/

/-- Configuration-level fields (and the source/device counts) that every
engine transition preserves. -/
def frameEq (a b : SMOState) : Prop :=
  a.buffer_capacity = b.buffer_capacity ∧
    a.min_requests = b.min_requests ∧
    a.rand = b.rand ∧
    a.sources.length = b.sources.length ∧
    a.devices.length = b.devices.length

theorem frameEq_refl (a : SMOState) : frameEq a a :=
  ⟨rfl, rfl, rfl, rfl, rfl⟩

theorem frameEq_trans {a b c : SMOState} (h1 : frameEq a b)
    (h2 : frameEq b c) : frameEq a c := by
  obtain ⟨x1, x2, x3, x4, x5⟩ := h1
  obtain ⟨y1, y2, y3, y4, y5⟩ := h2
  exact ⟨x1.trans y1, x2.trans y2, x3.trans y3, x4.trans y4, x5.trans y5⟩

theorem frameEq_bms32 (st : SMOState) (sid did : ℕ) :
    frameEq (st.bms32_block sid did) st := by
  rw [bms32_eq]
  exact ⟨rfl, rfl, rfl, by simp [modifyNth_length], by simp [modifyNth_length]⟩

theorem frameEq_bms11 (st : SMOState) (sid : ℕ) :
    frameEq (st.bms11_block sid) st := by
  rw [bms11_eq]
  exact ⟨rfl, rfl, rfl, by simp [modifyNth_length], rfl⟩

theorem frameEq_bms12 (st : SMOState) (sid : ℕ) :
    frameEq (st.bms12_block sid) st := by
  by_cases h : 0 ≤ findSlot (-1) st.BUFN
  · rw [bms12_eq_found st sid h]
    exact ⟨rfl, rfl, rfl, by simp [modifyNth_length], rfl⟩
  · rw [bms12_eq_miss st sid h]
    exact ⟨rfl, rfl, rfl, by simp [modifyNth_length], rfl⟩

theorem frameEq_srb (st : SMOState) :
    frameEq st.select_request_from_buffer.2 st := by
  obtain ⟨_, _, _, hc, hm, hs, hd, _, hr, _, _, _⟩ := srb_frame st
  exact ⟨hc, hm, hr, by rw [hs], by rw [hd]⟩

theorem frameEq_bms31 (st : SMOState) (did : ℕ) :
    frameEq (st.bms31_block did) st := by
  have hfr := frameEq_srb st
  unfold SMOState.bms31_block
  rcases hpr : st.select_request_from_buffer with ⟨sel, st2⟩
  rw [hpr] at hfr
  dsimp only at hfr ⊢
  obtain ⟨f1, f2, f3, f4, f5⟩ := hfr
  split
  · unfold SMOState.remove_from_buffer
    split
    · exact ⟨f1, f2, f3,
        by simpa [SMOState.draw, modifyNth_length] using f4,
        by simpa [SMOState.draw, modifyNth_length] using f5⟩
    · exact ⟨f1, f2, f3,
        by simpa [SMOState.draw, modifyNth_length] using f4,
        by simpa [SMOState.draw, modifyNth_length] using f5⟩
  · exact ⟨f1, f2, f3, f4, f5⟩

theorem frameEq_bas3 (st : SMOState) (did : ℕ) :
    frameEq (st.bas3_block did) st := by
  unfold SMOState.bas3_block
  simp only []
  split
  · exact frameEq_trans (frameEq_bms31 _ did)
      ⟨rfl, rfl, rfl, rfl, by simp [modifyNth_length]⟩
  · exact ⟨rfl, rfl, rfl, rfl, by simp [modifyNth_length]⟩

theorem frameEq_bas (st : SMOState) (sid : ℕ) :
    frameEq (st.bas_block sid) st := by
  unfold SMOState.bas_block
  cases hfd : find_free_device st.devices with
  | some did => exact frameEq_bms32 st sid did
  | none =>
    simp only []
    split
    · exact frameEq_bms12 st sid
    · exact frameEq_bms11 st sid

theorem frameEq_process (st : SMOState) (e : ℕ) :
    frameEq (st.process_event e) st := by
  unfold SMOState.process_event
  split
  · exact frameEq_bas st _
  · split
    · exact frameEq_bas3 st _
    · exact frameEq_refl st

theorem frameEq_loopBody (st st' : SMOState) (hb : st.loopBody = some st') :
    frameEq st' st := by
  unfold SMOState.loopBody at hb
  simp only [] at hb
  split at hb
  · exact absurd hb (by simp)
  · split at hb <;>
    · cases hb
      exact frameEq_process _ _

theorem frameEq_runLoop (fuel : ℕ) (st : SMOState) :
    frameEq (runLoop fuel st) st := by
  induction fuel generalizing st with
  | zero => exact frameEq_refl st
  | succ n ih =>
    unfold runLoop
    split
    · exact frameEq_refl st
    · cases hb : st.loopBody with
      | none => exact frameEq_refl st
      | some st' =>
        exact frameEq_trans (ih st') (frameEq_loopBody st st' hb)

/-! ## Preservation of the server invariant (at most two sources) -/

theorem mem_of_mem_set {l : List ℤ} {i : ℕ} {v y : ℤ} (h : y ∈ l.set i v) :
    y ∈ l ∨ y = v := by
  induction l generalizing i with
  | nil => simp at h
  | cons x xs ih =>
    cases i with
    | zero =>
      rcases List.mem_cons.mp h with rfl | hm
      · exact Or.inr rfl
      · exact Or.inl (List.mem_cons_of_mem _ hm)
    | succ k =>
      rcases List.mem_cons.mp h with rfl | hm
      · exact Or.inl (List.mem_cons_self _ _)
      · rcases ih hm with h1 | h1
        · exact Or.inl (List.mem_cons_of_mem _ h1)
        · exact Or.inr h1

theorem modifyNth_modifyNth (f g : α → α) (n : ℕ) (l : List α) :
    modifyNth g n (modifyNth f n l) = modifyNth (fun x => g (f x)) n l := by
  induction l generalizing n with
  | nil => cases n <;> rfl
  | cons x xs ih =>
    cases n with
    | zero => rfl
    | succ k => simp [modifyNth, ih]

/-- When source 0 has a buffered request the new packet is `0`; otherwise
(under two configured sources) the only occupied entries are `1`, so the
new packet `1` is buffered as well: the chosen packet always has a member. -/
theorem snp_found (st : SMOState) (h : ∃ n ∈ st.BUFN, n ≠ -1)
    (hval : ∀ n ∈ st.BUFN, n = -1 ∨ (0 ≤ n ∧ n < 2)) :
    st.select_new_packet.current_packet ∈ st.BUFN := by
  have hne' := filter_occ_not_empty h
  unfold SMOState.select_new_packet
  simp only []
  rw [if_neg hne']
  split
  · rename_i hcont
    show (0 : ℤ) ∈ st.BUFN
    have h0f : (0 : ℤ) ∈ st.BUFN.filter (fun n => decide (n ≠ -1)) := by
      simpa using hcont
    exact (List.mem_filter.mp h0f).1
  · rename_i hcont
    show (1 : ℤ) ∈ st.BUFN
    rcases h with ⟨n, hn, hne⟩
    rcases hval n hn with h1 | h1
    · exact absurd h1 hne
    · have : n = 0 ∨ n = 1 := by omega
      rcases this with rfl | rfl
      · exfalso
        apply hcont
        have : (0 : ℤ) ∈ st.BUFN.filter (fun n => decide (n ≠ -1)) :=
          List.mem_filter.mpr ⟨hn, by simp⟩
        simpa using this
      · exact hn

/-- Under two configured sources, the selection always succeeds on a
nonempty buffer. -/
theorem srb_sel_nonneg (st : SMOState) (h : ∃ n ∈ st.BUFN, n ≠ -1)
    (hval : ∀ n ∈ st.BUFN, n = -1 ∨ (0 ≤ n ∧ n < 2)) :
    0 ≤ st.select_request_from_buffer.1 := by
  have hsnp := snp_frame st
  unfold SMOState.select_request_from_buffer
  simp only []
  split
  · have hfound : st.select_new_packet.current_packet ∈
        st.select_new_packet.BUFN := by
      rw [hsnp.1]; exact snp_found st h hval
    have hge := findSlot_mem _ _ hfound
    rw [if_pos hge]
    exact hge
  · split
    · rename_i hge
      exact hge
    · rename_i hmiss
      have hfound : st.select_new_packet.current_packet ∈
          st.select_new_packet.BUFN := by
        rw [hsnp.1]; exact snp_found st h hval
      have hge := findSlot_mem _ _ hfound
      rw [if_pos hge]
      exact hge

/-- When the selection succeeds, `bms31_block` rewrites the freed device in
one step: busy with a fresh finite finish time. -/
theorem bms31_devices_eq (st : SMOState) (did : ℕ)
    (hsel : 0 ≤ st.select_request_from_buffer.1) :
    ∃ sid : ℕ,
      (st.bms31_block did).devices =
        modifyNth (fun d => { d with
          finish_time := ETime.fin
            (st.select_request_from_buffer.2.current_time +
              st.select_request_from_buffer.2.rand
                st.select_request_from_buffer.2.randIdx),
          is_busy := true,
          current_source := some sid,
          processed_count := d.processed_count + 1 })
          did st.select_request_from_buffer.2.devices := by
  unfold SMOState.bms31_block
  rcases hpr : st.select_request_from_buffer with ⟨sel, st2⟩
  rw [hpr] at hsel
  dsimp only at hsel ⊢
  rw [if_pos hsel]
  refine ⟨pyIndex st2.sources.length (st2.BUFN.getD sel.toNat (-1)), ?_⟩
  dsimp only
  unfold SMOState.remove_from_buffer
  split <;>
  · dsimp only
    rw [modifyNth_modifyNth]
    rfl

/-- A transition's devices are parked when every device is an old parked
one or was freshly rewritten into a consistent busy/finish pair. -/
theorem parked_of_modify (l : List Device) (n : ℕ) (f : Device → Device)
    (hold : ∀ d ∈ l, (d.finish_time = ETime.inf ↔ d.is_busy = false))
    (hf : ∀ d, ((f d).finish_time = ETime.inf ↔ (f d).is_busy = false)) :
    ∀ d ∈ modifyNth f n l, (d.finish_time = ETime.inf ↔ d.is_busy = false) := by
  intro d hd
  rcases mem_modifyNth f n l d hd with h1 | ⟨x, _, rfl⟩
  · exact hold d h1
  · exact hf x

theorem devP_bms32 (st : SMOState) (sid did : ℕ) (h : devicesParked st) :
    devicesParked (st.bms32_block sid did) := by
  rw [bms32_eq]
  intro d hd
  exact parked_of_modify st.devices did _ h (by intro d; simp) d hd

theorem devP_bms11 (st : SMOState) (sid : ℕ) (h : devicesParked st) :
    devicesParked (st.bms11_block sid) := by
  rw [bms11_eq]
  intro d hd
  exact h d hd

theorem devP_bms12 (st : SMOState) (sid : ℕ) (h : devicesParked st) :
    devicesParked (st.bms12_block sid) := by
  by_cases hw : 0 ≤ findSlot (-1) st.BUFN
  · rw [bms12_eq_found st sid hw]; intro d hd; exact h d hd
  · rw [bms12_eq_miss st sid hw]; intro d hd; exact h d hd

theorem devP_bas (st : SMOState) (sid : ℕ) (h : devicesParked st) :
    devicesParked (st.bas_block sid) := by
  unfold SMOState.bas_block
  cases hfd : find_free_device st.devices with
  | some did => exact devP_bms32 st sid did h
  | none =>
    simp only []
    split
    · exact devP_bms12 st sid h
    · exact devP_bms11 st sid h

theorem devP_bms31_general (stM : SMOState) (did : ℕ) (l : List Device)
    (hdevs : stM.devices = modifyNth
      (fun d => { d with is_busy := false, current_source := none }) did l)
    (hold : ∀ d ∈ l, (d.finish_time = ETime.inf ↔ d.is_busy = false))
    (hocc : ∃ n ∈ stM.BUFN, n ≠ -1)
    (hval : ∀ n ∈ stM.BUFN, n = -1 ∨ (0 ≤ n ∧ n < 2)) :
    devicesParked (stM.bms31_block did) := by
  have hsel := srb_sel_nonneg stM hocc hval
  obtain ⟨sid, hdev⟩ := bms31_devices_eq stM did hsel
  have hfr : stM.select_request_from_buffer.2.devices = stM.devices :=
    (srb_frame stM).2.2.2.2.2.2.1
  intro d hd
  rw [hdev, hfr, hdevs, modifyNth_modifyNth] at hd
  exact parked_of_modify l did _ hold (by intro x; simp) d hd

theorem devP_bas3 (st : SMOState) (did : ℕ) (h : devicesParked st)
    (hB : buffInv st) (hval2 : ∀ n ∈ st.BUFN, n = -1 ∨ (0 ≤ n ∧ n < 2)) :
    devicesParked (st.bas3_block did) := by
  unfold SMOState.bas3_block
  simp only []
  split
  · rename_i hpos
    apply devP_bms31_general _ did st.devices rfl h ?_ ?_
    · show ∃ n ∈ st.BUFN, n ≠ -1
      apply occupied_entry_exists st
      obtain ⟨_, _, hC⟩ := hB
      have hpos' : 0 < st.INDBUF := hpos
      omega
    · exact hval2
  · intro d hd
    dsimp only at hd
    rw [modifyNth_modifyNth] at hd
    exact parked_of_modify st.devices did _ h (by intro x; simp) d hd

theorem bufnValid_of (st' st : SMOState) (hN : st'.BUFN = st.BUFN)
    (hL : st'.sources.length = st.sources.length) (h : bufnValid st) :
    bufnValid st' := by
  intro n hn
  rw [hN] at hn
  have := h n hn
  rwa [hL]

theorem bufnValid_write (st' st : SMOState) (i : ℕ) (sid : ℕ)
    (hN : st'.BUFN = st.BUFN.set i (sid : ℤ))
    (hL : st'.sources.length = st.sources.length)
    (hsid : sid < st.sources.length) (h : bufnValid st) : bufnValid st' := by
  intro n hn
  rw [hN] at hn
  rcases mem_of_mem_set hn with h1 | rfl
  · have := h n h1; rwa [hL]
  · right
    refine ⟨by positivity, ?_⟩
    rw [hL]
    exact_mod_cast hsid

theorem bufnValid_clear (st' st : SMOState) (i : ℕ)
    (hN : st'.BUFN = st.BUFN.set i (-1))
    (hL : st'.sources.length = st.sources.length) (h : bufnValid st) :
    bufnValid st' := by
  intro n hn
  rw [hN] at hn
  rcases mem_of_mem_set hn with h1 | rfl
  · have := h n h1; rwa [hL]
  · exact Or.inl rfl

theorem bufnValid_bms32 (st : SMOState) (sid did : ℕ) (h : bufnValid st) :
    bufnValid (st.bms32_block sid did) :=
  bufnValid_of _ st (by rw [bms32_eq]) (frameEq_bms32 st sid did).2.2.2.1 h

theorem bufnValid_bms11 (st : SMOState) (sid : ℕ)
    (hsid : sid < st.sources.length) (h : bufnValid st) :
    bufnValid (st.bms11_block sid) :=
  bufnValid_write _ st st.find_victim_for_rejection sid (by rw [bms11_eq])
    (frameEq_bms11 st sid).2.2.2.1 hsid h

theorem bufnValid_bms12 (st : SMOState) (sid : ℕ)
    (hsid : sid < st.sources.length) (h : bufnValid st) :
    bufnValid (st.bms12_block sid) := by
  by_cases hw : 0 ≤ findSlot (-1) st.BUFN
  · exact bufnValid_write _ st (findSlot (-1) st.BUFN).toNat sid
      (by rw [bms12_eq_found st sid hw]) (frameEq_bms12 st sid).2.2.2.1 hsid h
  · exact bufnValid_of _ st (by rw [bms12_eq_miss st sid hw])
      (frameEq_bms12 st sid).2.2.2.1 h

theorem bms31_BUFN (st : SMOState) (did : ℕ) :
    (st.bms31_block did).BUFN = st.BUFN ∨
      ∃ i, (st.bms31_block did).BUFN = st.BUFN.set i (-1) := by
  have hfrN : st.select_request_from_buffer.2.BUFN = st.BUFN :=
    (srb_frame st).1
  unfold SMOState.bms31_block
  rcases hpr : st.select_request_from_buffer with ⟨sel, st2⟩
  rw [hpr] at hfrN
  dsimp only at hfrN ⊢
  split
  · unfold SMOState.remove_from_buffer
    split
    · right
      refine ⟨sel.toNat, ?_⟩
      dsimp only [SMOState.draw]
      rw [hfrN]
    · left
      dsimp only [SMOState.draw]
      exact hfrN
  · left
    exact hfrN

theorem bufnValid_bms31 (st : SMOState) (did : ℕ) (h : bufnValid st) :
    bufnValid (st.bms31_block did) := by
  have hL := (frameEq_bms31 st did).2.2.2.1
  rcases bms31_BUFN st did with hN | ⟨i, hN⟩
  · exact bufnValid_of _ st hN hL h
  · exact bufnValid_clear _ st i hN hL h

theorem bufnValid_bas3 (st : SMOState) (did : ℕ) (h : bufnValid st) :
    bufnValid (st.bas3_block did) := by
  unfold SMOState.bas3_block
  simp only []
  split
  · exact bufnValid_bms31 _ did (by exact h)
  · exact h

theorem bufnValid_bas (st : SMOState) (sid : ℕ)
    (hsid : sid < st.sources.length) (h : bufnValid st) :
    bufnValid (st.bas_block sid) := by
  unfold SMOState.bas_block
  cases hfd : find_free_device st.devices with
  | some did => exact bufnValid_bms32 st sid did h
  | none =>
    simp only []
    split
    · exact bufnValid_bms12 st sid hsid h
    · exact bufnValid_bms11 st sid hsid h

/-- The combined inductive invariant behind the server-invariant claim. -/
def engineInv (st : SMOState) : Prop :=
  buffInv st ∧ bufnValid st ∧ devicesParked st

theorem engineInv_process (st : SMOState) (e : ℕ)
    (hlen : st.sources.length ≤ 2) (h : engineInv st) :
    engineInv (st.process_event e) := by
  obtain ⟨hB, hV, hP⟩ := h
  have hval2 : ∀ n ∈ st.BUFN, n = -1 ∨ (0 ≤ n ∧ n < 2) := by
    intro n hn
    rcases hV n hn with h1 | ⟨h1, h2⟩
    · exact Or.inl h1
    · right
      refine ⟨h1, lt_of_lt_of_le h2 ?_⟩
      exact_mod_cast hlen
  unfold SMOState.process_event
  split
  · rename_i hrange
    have hsid : e - 1 < st.sources.length := by omega
    exact ⟨buffInv_bas st _ hB, bufnValid_bas st _ hsid hV,
      devP_bas st _ hP⟩
  · split
    · exact ⟨buffInv_bas3 st _ hB, bufnValid_bas3 st _ hV,
        devP_bas3 st _ hP hB hval2⟩
    · exact ⟨hB, hV, hP⟩

theorem engineInv_loopBody (st st' : SMOState)
    (hlen : st.sources.length ≤ 2) (h : engineInv st)
    (hb : st.loopBody = some st') : engineInv st' := by
  unfold SMOState.loopBody at hb
  simp only [] at hb
  split at hb
  · exact absurd hb (by simp)
  · split at hb <;>
    · cases hb
      exact engineInv_process _ _ (by exact hlen) (by exact h)

theorem engineInv_runLoop (fuel : ℕ) (st : SMOState)
    (hlen : st.sources.length ≤ 2) (h : engineInv st) :
    engineInv (runLoop fuel st) := by
  induction fuel generalizing st with
  | zero => exact h
  | succ n ih =>
    unfold runLoop
    split
    · exact h
    · cases hb : st.loopBody with
      | none => exact h
      | some st' =>
        have hlen' : st'.sources.length ≤ 2 := by
          rw [(frameEq_loopBody st st' hb).2.2.2.1]; exact hlen
        exact ih st' hlen' (engineInv_loopBody st st' hlen h hb)

theorem init_sources_length (st : SMOState) :
    st.init_realization.sources.length = st.sources.length := by
  unfold SMOState.init_realization
  simp only []
  rw [List.length_reverse]
  simpa using initFold_length st.sources ([], { st with current_time := 0 })

theorem bufnValid_init (st : SMOState) : bufnValid st.init_realization := by
  intro n hn
  have : n = -1 := List.eq_of_mem_replicate (by exact hn)
  exact Or.inl this

theorem devP_init (st : SMOState) : devicesParked st.init_realization := by
  intro d hd
  rcases List.mem_map.mp (by exact hd) with ⟨x, _, rfl⟩
  simp

/-- C5 amended: for configurations with at most two sources, every server
has `finish_time = +∞` exactly when it is idle, at reset and after every
processed event of the realization. -/
theorem C5_parked_two_sources (st : SMOState) (fuel : ℕ)
    (hlen : st.sources.length ≤ 2) :
    devicesParked (runLoop fuel st.init_realization) := by
  have hinit : engineInv st.init_realization :=
    ⟨buffInv_init st, bufnValid_init st, devP_init st⟩
  have hlen' : st.init_realization.sources.length ≤ 2 := by
    rw [init_sources_length]; exact hlen
  exact (engineInv_runLoop fuel _ hlen' hinit).2.2

/-- C5 witness: the two-source state `stC3` keeps the invariant for the
first three events of its realization. -/
theorem C5_parked_two_sources_witness :
    stC3.sources.length ≤ 2 ∧
      devicesParked (runLoop 3 stC3.init_realization) :=
  ⟨by decide, C5_parked_two_sources stC3 3 (by decide)⟩

/-! ## Virtual-time monotonicity -/

theorem ETime.notLtLe {a b : ETime} (h : a.lt b = false) : b.le a = true := by
  cases a <;> cases b <;> simp [ETime.lt, ETime.le] at *
  exact h

theorem ETime.leAntisymm {a b : ETime} (h1 : a.le b = true)
    (h2 : b.le a = true) : a = b := by
  cases a <;> cases b <;> simp [ETime.le] at *
  exact le_antisymm h1 h2

theorem getD_mem {α : Type} {l : List α} {i : ℕ} (h : i < l.length) (d : α) :
    l.getD i d ∈ l := by
  rw [List.getD_eq_getElem l d h]
  exact List.getElem_mem h

/-- The scan of `find_device_to_free` either never improves on the running
minimum, or lands on a scanned device whose finish time is minimal. -/
theorem fdtfAux_spec (ds : List Device) (mn : ETime) (res idx : ℕ) :
    (fdtfAux ds mn res idx = res ∧ ∀ d ∈ ds, d.finish_time.lt mn = false) ∨
      (∃ j, j < ds.length ∧ fdtfAux ds mn res idx = idx + j ∧
        ((ds.getD j default).finish_time.lt mn = true ∧
          ∀ d ∈ ds, d.finish_time.lt
            (ds.getD j default).finish_time = false)) := by
  induction ds generalizing mn res idx with
  | nil => exact Or.inl ⟨rfl, by simp⟩
  | cons d0 ds ih =>
    by_cases hlt : d0.finish_time.lt mn = true
    · rcases ih d0.finish_time idx (idx + 1) with ⟨h1, h2⟩ | ⟨j, h1, h2, h3, h4⟩
      · right
        refine ⟨0, by simp, ?_, ?_, ?_⟩
        · show fdtfAux (d0 :: ds) mn res idx = idx + 0
          rw [Nat.add_zero]
          show (if d0.finish_time.lt mn = true then
            fdtfAux ds d0.finish_time idx (idx + 1)
            else fdtfAux ds mn res (idx + 1)) = idx
          rw [if_pos hlt]
          exact h1
        · simpa using hlt
        · intro d hd
          rcases List.mem_cons.mp hd with rfl | hmem
          · simpa using ETime.ltIrrefl d.finish_time
          · simpa using h2 d hmem
      · right
        refine ⟨j + 1, by simpa using Nat.succ_lt_succ h1, ?_, ?_, ?_⟩
        · show (if d0.finish_time.lt mn = true then
            fdtfAux ds d0.finish_time idx (idx + 1)
            else fdtfAux ds mn res (idx + 1)) = idx + (j + 1)
          rw [if_pos hlt, h2]
          omega
        · exact ETime.ltTrans (by simpa using h3) hlt
        · intro d hd
          rcases List.mem_cons.mp hd with rfl | hmem
          · exact ETime.ltAsymm (by simpa using h3)
          · simpa using h4 d hmem
    · have hlt' : d0.finish_time.lt mn = false := by
        simpa using hlt
      rcases ih mn res (idx + 1) with ⟨h1, h2⟩ | ⟨j, h1, h2, h3, h4⟩
      · left
        refine ⟨?_, ?_⟩
        · show (if d0.finish_time.lt mn = true then
            fdtfAux ds d0.finish_time idx (idx + 1)
            else fdtfAux ds mn res (idx + 1)) = res
          rw [if_neg hlt]
          exact h1
        · intro d hd
          rcases List.mem_cons.mp hd with rfl | hmem
          · exact hlt'
          · exact h2 d hmem
      · right
        refine ⟨j + 1, by simpa using Nat.succ_lt_succ h1, ?_, ?_, ?_⟩
        · show (if d0.finish_time.lt mn = true then
            fdtfAux ds d0.finish_time idx (idx + 1)
            else fdtfAux ds mn res (idx + 1)) = idx + (j + 1)
          rw [if_neg hlt, h2]
          omega
        · simpa using h3
        · intro d hd
          rcases List.mem_cons.mp hd with rfl | hmem
          · by_contra hcon
            have hcon' : d.finish_time.lt
                ((ds.getD j default).finish_time) = true := by
              simpa using hcon
            have := ETime.ltTrans hcon' (by simpa using h3)
            rw [this] at hlt'
            cases hlt'
          · simpa using h4 d hmem

/-- When some device has a finite finish time, `find_device_to_free`
returns a valid index holding the minimal finish time. -/
theorem fdtf_min (st : SMOState)
    (hfin : listMinE (st.devices.map (·.finish_time)) ≠ ETime.inf) :
    st.find_device_to_free < st.devices.length ∧
      (st.devices.getD st.find_device_to_free default).finish_time =
        listMinE (st.devices.map (·.finish_time)) := by
  unfold SMOState.find_device_to_free
  rcases fdtfAux_spec st.devices ETime.inf 0 0 with ⟨h1, h2⟩ |
    ⟨j, h1, h2, _, h4⟩
  · exfalso
    apply hfin
    rcases listMinE_mem (st.devices.map (·.finish_time)) with hm | hm
    · rcases List.mem_map.mp hm with ⟨d, hd, hde⟩
      have := h2 d hd
      rw [← hde]
      cases hcase : d.finish_time with
      | inf => rfl
      | fin t => rw [hcase] at this; simp [ETime.lt] at this
    · exact hm
  · rw [h2]
    have hj0 : (0 : ℕ) + j = j := by omega
    rw [hj0]
    refine ⟨h1, ?_⟩
    apply ETime.leAntisymm
    · -- the found minimum is below every finish time, hence below the min
      rcases listMinE_mem (st.devices.map (·.finish_time)) with hm | hm
      · rcases List.mem_map.mp hm with ⟨d, hd, hde⟩
        rw [← hde]
        exact ETime.notLtLe (h4 d hd)
      · rw [hm]
        cases (st.devices.getD j default).finish_time <;> simp [ETime.le]
    · exact listMinE_le _ _ (List.mem_map.mpr ⟨_, getD_mem h1 default, rfl⟩)

theorem timeB_sources (l : List Source) (n : ℕ) (f : Source → Source)
    (c : ℚ) (hold : ∀ s ∈ l, c ≤ s.next_arrival_time)
    (hf : ∀ s ∈ l, c ≤ (f s).next_arrival_time) :
    ∀ s ∈ modifyNth f n l, c ≤ s.next_arrival_time := by
  intro s hs
  rcases mem_modifyNth f n l s hs with h1 | ⟨x, hx, rfl⟩
  · exact hold s h1
  · exact hf x hx

theorem timeB_devices (l : List Device) (n : ℕ) (f : Device → Device)
    (c : ℚ) (hold : ∀ d ∈ l, (ETime.fin c).le d.finish_time = true)
    (hf : ∀ d ∈ l, (ETime.fin c).le (f d).finish_time = true) :
    ∀ d ∈ modifyNth f n l, (ETime.fin c).le d.finish_time = true := by
  intro d hd
  rcases mem_modifyNth f n l d hd with h1 | ⟨x, hx, rfl⟩
  · exact hold d h1
  · exact hf x hx

theorem bms31_eq_neg (st : SMOState) (did : ℕ)
    (hsel : ¬ 0 ≤ st.select_request_from_buffer.1) :
    st.bms31_block did = st.select_request_from_buffer.2 := by
  unfold SMOState.bms31_block
  rcases hpr : st.select_request_from_buffer with ⟨sel, st2⟩
  rw [hpr] at hsel
  dsimp only at hsel ⊢
  rw [if_neg hsel]

/-- Like `bms31_devices_eq` but expressed over the pre-selection state: the
fresh finish time is the current time plus an oracle draw. -/
theorem bms31_devices_time (st : SMOState) (did : ℕ)
    (hsel : 0 ≤ st.select_request_from_buffer.1) :
    ∃ (n : ℕ) (sid : ℕ),
      (st.bms31_block did).devices =
        modifyNth (fun d => { d with
          finish_time := ETime.fin (st.current_time + st.rand n),
          is_busy := true,
          current_source := some sid,
          processed_count := d.processed_count + 1 })
          did st.devices := by
  obtain ⟨sid, hdev⟩ := bms31_devices_eq st did hsel
  obtain ⟨_, _, _, _, _, _, hd, hct, hr, _, _, _⟩ := srb_frame st
  refine ⟨st.select_request_from_buffer.2.randIdx, sid, ?_⟩
  rw [hdev, hd, hct, hr]

theorem timeInv_bms32 (st : SMOState) (sid did : ℕ) (hr : nonnegOracle st)
    (h : timeInv st) : timeInv (st.bms32_block sid did) := by
  obtain ⟨hA, hF⟩ := h
  rw [bms32_eq]
  constructor
  · exact timeB_sources st.sources sid _ st.current_time hA
      (fun s _ => by
        show st.current_time ≤ st.current_time + st.rand (st.randIdx + 1)
        have := hr (st.randIdx + 1)
        linarith)
  · exact timeB_devices st.devices did _ st.current_time hF
      (fun d _ => by
        show (ETime.fin st.current_time).le
          (ETime.fin (st.current_time + st.rand st.randIdx)) = true
        rw [ETime.le_fin]
        have := hr st.randIdx
        linarith)

theorem timeInv_bms11 (st : SMOState) (sid : ℕ) (hr : nonnegOracle st)
    (h : timeInv st) : timeInv (st.bms11_block sid) := by
  obtain ⟨hA, hF⟩ := h
  rw [bms11_eq]
  refine ⟨?_, hF⟩
  apply timeB_sources _ sid _ st.current_time
  · exact timeB_sources st.sources sid _ st.current_time hA
      (fun s hs => by show st.current_time ≤ s.next_arrival_time
                      exact hA s hs)
  · intro s _
    show st.current_time ≤ st.current_time + st.rand st.randIdx
    have := hr st.randIdx
    linarith

theorem timeInv_bms12 (st : SMOState) (sid : ℕ) (hr : nonnegOracle st)
    (h : timeInv st) : timeInv (st.bms12_block sid) := by
  obtain ⟨hA, hF⟩ := h
  have harr : ∀ s ∈ modifyNth (fun s => { s with
      generated_count := s.generated_count + 1,
      next_arrival_time := st.current_time + st.rand st.randIdx })
      sid st.sources, st.current_time ≤ s.next_arrival_time := by
    apply timeB_sources _ sid _ st.current_time hA
    intro s _
    show st.current_time ≤ st.current_time + st.rand st.randIdx
    have := hr st.randIdx
    linarith
  by_cases hw : 0 ≤ findSlot (-1) st.BUFN
  · rw [bms12_eq_found st sid hw]
    exact ⟨harr, hF⟩
  · rw [bms12_eq_miss st sid hw]
    exact ⟨harr, hF⟩

theorem arrivals_of_modify (l : List Source) (n : ℕ) (f : Source → Source)
    (hf : ∀ x, (f x).next_arrival_time = x.next_arrival_time) :
    ∀ s ∈ modifyNth f n l, ∃ x ∈ l,
      s.next_arrival_time = x.next_arrival_time := by
  intro s hs
  rcases mem_modifyNth f n l s hs with h1 | ⟨x, hx, rfl⟩
  · exact ⟨s, h1, rfl⟩
  · exact ⟨x, hx, hf x⟩

theorem bms31_ct (st : SMOState) (did : ℕ) :
    (st.bms31_block did).current_time = st.current_time := by
  have hct : st.select_request_from_buffer.2.current_time =
      st.current_time := (srb_frame st).2.2.2.2.2.2.2.1
  unfold SMOState.bms31_block
  rcases hpr : st.select_request_from_buffer with ⟨sel, st2⟩
  rw [hpr] at hct
  dsimp only at hct ⊢
  split
  · unfold SMOState.remove_from_buffer
    split <;>
    · dsimp only [SMOState.draw]
      exact hct
  · exact hct

theorem bms31_sources_arrivals (st : SMOState) (did : ℕ) :
    ∀ s ∈ (st.bms31_block did).sources, ∃ x ∈ st.sources,
      s.next_arrival_time = x.next_arrival_time := by
  have hsrc : st.select_request_from_buffer.2.sources = st.sources :=
    (srb_frame st).2.2.2.2.2.1
  unfold SMOState.bms31_block
  rcases hpr : st.select_request_from_buffer with ⟨sel, st2⟩
  rw [hpr] at hsrc
  dsimp only at hsrc ⊢
  split
  · unfold SMOState.remove_from_buffer
    split <;>
    · dsimp only [SMOState.draw]
      intro s hs
      rw [modifyNth_modifyNth] at hs
      rw [← hsrc]
      refine arrivals_of_modify _ _ _ ?_ s hs
      intro x
      rfl
  · intro s hs
    rw [← hsrc]
    exact ⟨s, hs, rfl⟩

theorem timeInv_bms31 (st : SMOState) (did : ℕ) (hr : nonnegOracle st)
    (h : timeInv st) : timeInv (st.bms31_block did) := by
  obtain ⟨hA, hF⟩ := h
  obtain ⟨_, _, _, _, _, hsrc, hdev, hct, hrand, _, _, _⟩ := srb_frame st
  by_cases hsel : 0 ≤ st.select_request_from_buffer.1
  · constructor
    · intro s hs
      rw [bms31_ct st did]
      rcases bms31_sources_arrivals st did s hs with ⟨x, hx, hxe⟩
      rw [hxe]
      exact hA x hx
    · intro d hd
      rw [bms31_ct st did]
      obtain ⟨n, sid, hdevs⟩ := bms31_devices_time st did hsel
      rw [hdevs] at hd
      refine timeB_devices st.devices did _ st.current_time hF ?_ d hd
      intro x _
      show (ETime.fin st.current_time).le
        (ETime.fin (st.current_time + st.rand n)) = true
      rw [ETime.le_fin]
      have := hr n
      linarith
  · rw [bms31_eq_neg st did hsel]
    exact ⟨by rw [hsrc, hct]; exact hA, by rw [hdev, hct]; exact hF⟩

theorem timeInv_bas3 (st : SMOState) (did : ℕ) (hr : nonnegOracle st)
    (h : timeInv st) : timeInv (st.bas3_block did) := by
  obtain ⟨hA, hF⟩ := h
  unfold SMOState.bas3_block
  simp only []
  split
  · apply timeInv_bms31 _ did (by exact hr)
    constructor
    · exact hA
    · exact timeB_devices st.devices did _ st.current_time hF
        (fun d hd => by
          show (ETime.fin st.current_time).le d.finish_time = true
          exact hF d hd)
  · constructor
    · exact hA
    · intro d hd
      dsimp only at hd
      rw [modifyNth_modifyNth] at hd
      refine timeB_devices st.devices did _ st.current_time hF ?_ d hd
      intro x _
      show (ETime.fin st.current_time).le ETime.inf = true
      rfl

theorem timeInv_bas (st : SMOState) (sid : ℕ) (hr : nonnegOracle st)
    (h : timeInv st) : timeInv (st.bas_block sid) := by
  unfold SMOState.bas_block
  cases hfd : find_free_device st.devices with
  | some did => exact timeInv_bms32 st sid did hr h
  | none =>
    simp only []
    split
    · exact timeInv_bms12 st sid hr h
    · exact timeInv_bms11 st sid hr h

theorem timeInv_process (st : SMOState) (e : ℕ) (hr : nonnegOracle st)
    (h : timeInv st) : timeInv (st.process_event e) := by
  unfold SMOState.process_event
  split
  · exact timeInv_bas st _ hr h
  · split
    · exact timeInv_bas3 st _ hr h
    · exact h

theorem bas3_ct (st : SMOState) (did : ℕ) :
    (st.bas3_block did).current_time = st.current_time := by
  unfold SMOState.bas3_block
  simp only []
  split
  · exact bms31_ct _ did
  · rfl

theorem bas_ct (st : SMOState) (sid : ℕ) :
    (st.bas_block sid).current_time = st.current_time := by
  unfold SMOState.bas_block
  cases hfd : find_free_device st.devices with
  | some did =>
    show (st.bms32_block sid did).current_time = st.current_time
    rw [bms32_eq]
  | none =>
    simp only []
    split
    · show (st.bms12_block sid).current_time = st.current_time
      by_cases hw : 0 ≤ findSlot (-1) st.BUFN
      · rw [bms12_eq_found st sid hw]
      · rw [bms12_eq_miss st sid hw]
    · show (st.bms11_block sid).current_time = st.current_time
      rw [bms11_eq]

theorem process_ct (st : SMOState) (e : ℕ) :
    (st.process_event e).current_time = st.current_time := by
  unfold SMOState.process_event
  split
  · exact bas_ct st _
  · split
    · exact bas3_ct st _
    · rfl

/-- One loop iteration keeps the pending-events bound and never moves the
clock backwards. -/
theorem step_time (st st' : SMOState) (hr : nonnegOracle st)
    (hT : timeInv st) (hb : st.loopBody = some st') :
    timeInv st' ∧ st.current_time ≤ st'.current_time := by
  obtain ⟨hA, hF⟩ := hT
  unfold SMOState.loopBody at hb
  simp only [] at hb
  split at hb
  · exact absurd hb (by simp)
  · split at hb
    · -- arrival event: the clock moves to the earliest pending arrival
      rename_i hrange
      cases hb
      have hs : st.sources ≠ [] := by
        intro hnil
        rw [hnil] at hrange
        simp at hrange
        omega
      have hmemA : listMinQ (st.sources.map (·.next_arrival_time)) ∈
          st.sources.map (·.next_arrival_time) :=
        listMinQ_mem _ (by simpa using hs)
      rcases List.mem_map.mp hmemA with ⟨s0, hs0, hs0e⟩
      have hattain : ∃ x ∈ st.sources, (fun s =>
          decide (s.next_arrival_time = listMinQ (st.sources.map
            (·.next_arrival_time)))) x = true :=
        ⟨s0, hs0, by simpa using hs0e⟩
      rcases firstIdx_spec _ default st.sources hattain with ⟨hI1, hI2, _⟩
      have hc : (ETime.fin (listMinQ (st.sources.map
          (·.next_arrival_time)))).le (listMinE (st.devices.map
          (·.finish_time))) = true := by
        by_contra hcf
        have he : st.boos_block = st.sources.length + 1 := by
          simp [SMOState.boos_block, Bool.of_not_eq_true hcf]
        omega
      have he : st.boos_block = firstIdx (fun s =>
          decide (s.next_arrival_time = listMinQ (st.sources.map
            (·.next_arrival_time)))) st.sources + 1 := by
        simp [SMOState.boos_block, hc]
      have harr : (st.sources.getD (st.boos_block - 1)
          default).next_arrival_time =
          listMinQ (st.sources.map (·.next_arrival_time)) := by
        rw [he]
        simpa using of_decide_eq_true hI2
      constructor
      · apply timeInv_process _ _ (by exact hr)
        constructor
        · intro s hsm
          show (st.sources.getD (st.boos_block - 1)
            default).next_arrival_time ≤ s.next_arrival_time
          rw [harr]
          exact listMinQ_le _ _ (List.mem_map.mpr ⟨s, hsm, rfl⟩)
        · intro d hdm
          show (ETime.fin (st.sources.getD (st.boos_block - 1)
            default).next_arrival_time).le d.finish_time = true
          rw [harr]
          exact ETime.leTrans hc
            (listMinE_le _ _ (List.mem_map.mpr ⟨d, hdm, rfl⟩))
      · rw [process_ct]
        show st.current_time ≤ (st.sources.getD (st.boos_block - 1)
          default).next_arrival_time
        exact hA _ (getD_mem (by omega) default)
    · -- completion event: the clock moves to the earliest finish time
      rename_i hrange
      cases hb
      cases hft : (st.devices.getD st.find_device_to_free
          default).finish_time with
      | inf =>
        constructor
        · apply timeInv_process _ _ (by exact hr)
          exact ⟨by exact hA, by exact hF⟩
        · rw [process_ct]
          exact le_refl st.current_time
      | fin m =>
        have hminne : listMinE (st.devices.map (·.finish_time)) ≠
            ETime.inf := by
          intro hcon
          rcases fdtfAux_spec st.devices ETime.inf 0 0 with ⟨h1, h2⟩ |
            ⟨j, h1, h2, h3, _⟩
          · -- every finish time would be infinite, contradicting `fin m`
            by_cases hdev : st.find_device_to_free < st.devices.length
            · have hmem := getD_mem hdev (default : Device)
              have := h2 _ hmem
              rw [hft] at this
              simp [ETime.lt] at this
            · have : (st.devices.getD st.find_device_to_free
                  default).finish_time = ETime.inf := by
                rw [List.getD_eq_default _ _ (Nat.le_of_not_lt hdev)]
                rfl
              rw [hft] at this
              cases this
          · have hj := listMinE_le (st.devices.map (·.finish_time)) _
              (List.mem_map.mpr ⟨_, getD_mem h1 (default : Device), rfl⟩)
            rw [hcon] at hj
            cases hjft : (st.devices.getD j default).finish_time with
            | inf => rw [hjft] at h3; simp [ETime.lt] at h3
            | fin mj => rw [hjft] at hj; simp [ETime.le] at hj
        obtain ⟨hfd1, hfd2⟩ := fdtf_min st hminne
        have hmmin : ETime.fin m = listMinE (st.devices.map
            (·.finish_time)) := by rw [← hft, hfd2]
        have hctm : st.current_time ≤ m := by
          have := hF _ (getD_mem hfd1 (default : Device))
          rw [hft] at this
          exact ETime.le_fin.mp this
        have harrm : ∀ s ∈ st.sources, m ≤ s.next_arrival_time := by
          intro s hsm
          cases hsrcs : st.sources with
          | nil => rw [hsrcs] at hsm; simp at hsm
          | cons a as =>
            have hs : st.sources ≠ [] := by rw [hsrcs]; simp
            have hc : (ETime.fin (listMinQ (st.sources.map
                (·.next_arrival_time)))).le (listMinE (st.devices.map
                (·.finish_time))) = false := by
              by_contra hcc
              have hcc' : (ETime.fin (listMinQ (st.sources.map
                  (·.next_arrival_time)))).le (listMinE (st.devices.map
                  (·.finish_time))) = true := by
                simpa using hcc
              have he : st.boos_block = firstIdx (fun s =>
                  decide (s.next_arrival_time = listMinQ (st.sources.map
                    (·.next_arrival_time)))) st.sources + 1 := by
                simp [SMOState.boos_block, hcc']
              have hmemA : listMinQ (st.sources.map (·.next_arrival_time)) ∈
                  st.sources.map (·.next_arrival_time) :=
                listMinQ_mem _ (by simpa using hs)
              rcases List.mem_map.mp hmemA with ⟨s1, hs1, hs1e⟩
              have hattain : ∃ x ∈ st.sources, (fun s =>
                  decide (s.next_arrival_time = listMinQ (st.sources.map
                    (·.next_arrival_time)))) x = true :=
                ⟨s1, hs1, by simpa using hs1e⟩
              rcases firstIdx_spec _ default st.sources hattain with
                ⟨hI1, _, _⟩
              exact hrange ⟨by omega, by omega⟩
            have hlt := ETime.notLe hc
            rw [← hmmin] at hlt
            have hminle := listMinQ_le (st.sources.map
              (·.next_arrival_time)) _ (List.mem_map.mpr ⟨s, hsm, rfl⟩)
            have := ETime.le_fin.mp hlt
            linarith
        have hfinm : ∀ d ∈ st.devices,
            (ETime.fin m).le d.finish_time = true := by
          intro d hdm
          rw [hmmin]
          exact listMinE_le _ _ (List.mem_map.mpr ⟨d, hdm, rfl⟩)
        constructor
        · apply timeInv_process _ _ (by exact hr)
          refine ⟨?_, ?_⟩
          · intro s hsm
            exact harrm s hsm
          · intro d hdm
            exact hfinm d hdm
        · rw [process_ct]
          exact hctm

/-- The oracle draws consumed during reset, in source order. -/
theorem initFold_sources_nonneg (l : List Source)
    (acc : List Source × SMOState) (hrand : ∀ n, 0 ≤ acc.2.rand n)
    (hacc : ∀ s ∈ acc.1, 0 ≤ s.next_arrival_time) :
    ∀ s ∈ (l.foldl (fun (acc : List Source × SMOState) s =>
      let (l, st) := acc
      let (iv, st) := st.draw
      ({ s with
          generated_count := 0,
          processed_count := 0,
          rejected_count := 0,
          total_wait_time := 0,
          next_arrival_time := iv } :: l, st)) acc).1,
      0 ≤ s.next_arrival_time := by
  induction l generalizing acc with
  | nil => exact hacc
  | cons x xs ih =>
    rw [List.foldl_cons]
    apply ih
    · intro n
      exact hrand n
    · intro s hs
      rcases List.mem_cons.mp hs with rfl | hmem
      · exact hrand _
      · exact hacc s hmem

theorem init_ct (st : SMOState) : st.init_realization.current_time = 0 := by
  unfold SMOState.init_realization
  simp only []
  rw [initFold_state]

theorem init_rand (st : SMOState) : st.init_realization.rand = st.rand := by
  unfold SMOState.init_realization
  simp only []
  rw [initFold_state]

theorem timeInv_init (st : SMOState) (hr : nonnegOracle st) :
    timeInv st.init_realization := by
  constructor
  · intro s hs
    rw [init_ct]
    revert hs
    unfold SMOState.init_realization
    simp only []
    intro hs
    have hs' : s ∈ (st.sources.foldl (fun (acc : List Source × SMOState) s =>
        let (l, st) := acc
        let (iv, st) := st.draw
        ({ s with
            generated_count := 0,
            processed_count := 0,
            rejected_count := 0,
            total_wait_time := 0,
            next_arrival_time := iv } :: l, st))
          ([], { st with current_time := 0 })).1 := by
      simpa using hs
    exact initFold_sources_nonneg st.sources
      ([], { st with current_time := 0 }) (fun n => hr n) (by simp) s hs'
  · intro d hd
    rcases List.mem_map.mp (by exact hd) with ⟨x, _, rfl⟩
    rfl

theorem oracle_loopBody (st st' : SMOState) (hr : nonnegOracle st)
    (hb : st.loopBody = some st') : nonnegOracle st' := by
  intro n
  rw [(frameEq_loopBody st st' hb).2.2.1]
  exact hr n

theorem runLoop_time_mono (fuel : ℕ) (st : SMOState) (hr : nonnegOracle st)
    (hT : timeInv st) :
    (runLoop fuel st).current_time ≤ (runLoop (fuel + 1) st).current_time := by
  induction fuel generalizing st with
  | zero =>
    show st.current_time ≤ (runLoop 1 st).current_time
    unfold runLoop
    split
    · exact le_refl _
    · cases hb : st.loopBody with
      | none => exact le_refl _
      | some st' => exact (step_time st st' hr hT hb).2
  | succ n ih =>
    unfold runLoop
    split
    · exact le_refl _
    · cases hb : st.loopBody with
      | none => exact le_refl _
      | some st' =>
        exact ih st' (oracle_loopBody st st' hr hb)
          (step_time st st' hr hT hb).1

/-- C9: with nonnegative sampled intervals and service times, the virtual
clock never moves backwards across successive loop iterations of a
realization. -/
theorem C9_time_monotone (st : SMOState) (fuel : ℕ)
    (hr : nonnegOracle st) :
    (runLoop fuel st.init_realization).current_time ≤
      (runLoop (fuel + 1) st.init_realization).current_time := by
  apply runLoop_time_mono
  · intro n
    rw [init_rand]
    exact hr n
  · exact timeInv_init st hr

theorem getD_nonneg {l : List ℚ} {d : ℚ} (hl : ∀ x ∈ l, 0 ≤ x)
    (hd : 0 ≤ d) (n : ℕ) : 0 ≤ l.getD n d := by
  rcases Nat.lt_or_ge n l.length with h | h
  · exact hl _ (getD_mem h d)
  · rw [List.getD_eq_default _ _ h]
    exact hd

/-- C9 witness: monotonicity across the third event of the `stC3`
realization. -/
theorem C9_time_monotone_witness :
    nonnegOracle stC3 ∧
      (runLoop 2 stC3.init_realization).current_time ≤
        (runLoop 3 stC3.init_realization).current_time := by
  have hr : nonnegOracle stC3 := fun n =>
    getD_nonneg (by decide) (by decide) n
  exact ⟨hr, C9_time_monotone stC3 2 hr⟩

/-! ## Clean stop versus iteration ceiling -/

theorem init_min (st : SMOState) :
    st.init_realization.min_requests = st.min_requests := by
  unfold SMOState.init_realization
  simp only []
  rw [initFold_state]

/-- The stopping condition can be read back off the result record: every
per-source `total` is the source's generated count. -/
theorem results_all_eq_allDone (st : SMOState) :
    (st.calculate_results.sources_stats.all
      (fun s => decide (st.min_requests ≤ s.total))) = st.allDone := by
  unfold SMOState.calculate_results SMOState.allDone
  simp only []
  induction st.sources with
  | nil => rfl
  | cons x xs ih => simp only [List.map_cons, List.all_cons, ih]

/-- C8: a realization that ends with some source short of the minimum (the
only way the iteration ceiling can end it) produces a result record that
differs from that of any clean stop under the same configured minimum. -/
theorem C8_ceiling_distinguishable (fuel : ℕ) (st1 st2 : SMOState)
    (hmin : st1.min_requests = st2.min_requests)
    (h1 : (runLoop fuel st1.init_realization).allDone = false)
    (h2 : (runLoop fuel st2.init_realization).allDone = true) :
    (runLoop fuel st1.init_realization).calculate_results ≠
      (runLoop fuel st2.init_realization).calculate_results := by
  intro heq
  have e1 := results_all_eq_allDone (runLoop fuel st1.init_realization)
  have e2 := results_all_eq_allDone (runLoop fuel st2.init_realization)
  rw [h1] at e1
  rw [h2] at e2
  have hm : (runLoop fuel st1.init_realization).min_requests =
      (runLoop fuel st2.init_realization).min_requests := by
    rw [(frameEq_runLoop fuel st1.init_realization).2.1,
      (frameEq_runLoop fuel st2.init_realization).2.1,
      init_min, init_min, hmin]
  rw [heq, hm, e2] at e1
  cases e1

/-- Ceiling-side configuration for the C8 witness: two sources, only one
of which can generate within one event. -/
def w81 : SMOState :=
  { buffer_capacity := 1, min_requests := 1,
    sources := [⟨0, 0, 0, 0, 0, 0⟩, ⟨1, 0, 0, 0, 0, 0⟩],
    devices := [⟨0, false, none, 0, .inf⟩],
    current_time := 0, INDBUF := 0, BUFT := [0], BUFN := [-1], KOTK := 0,
    TOG := [0, 0], current_packet := -1, packet_empty := true,
    rand := fun n => (([1, 2, 10] : List ℚ).getD n 0), randIdx := 0 }

/-- Clean-stop configuration for the C8 witness: one source that reaches
the minimum within one event. -/
def w82 : SMOState :=
  { buffer_capacity := 1, min_requests := 1,
    sources := [⟨0, 0, 0, 0, 0, 0⟩],
    devices := [⟨0, false, none, 0, .inf⟩],
    current_time := 0, INDBUF := 0, BUFT := [0], BUFN := [-1], KOTK := 0,
    TOG := [0], current_packet := -1, packet_empty := true,
    rand := fun n => (([1, 10, 5] : List ℚ).getD n 0), randIdx := 0 }

/-- C8 witness: after one event `w81` is still short of the minimum while
`w82` stopped cleanly, and their result records differ. -/
theorem C8_ceiling_distinguishable_witness :
    w81.min_requests = w82.min_requests ∧
      (runLoop 1 w81.init_realization).allDone = false ∧
      (runLoop 1 w82.init_realization).allDone = true ∧
      (runLoop 1 w81.init_realization).calculate_results ≠
        (runLoop 1 w82.init_realization).calculate_results :=
  ⟨by decide, by decide, by decide,
    C8_ceiling_distinguishable 1 w81 w82 (by decide) (by decide) (by decide)⟩
